import Mathlib

/-!
# Verification of the debate_agent core

A shallow embedding, in Lean 4, of the core of the `debate_agent`
repository (the multi-agent debate orchestration engine), together with
proofs and refutations of the testable properties stated in its design
specification.

Embedding conventions:
* Python text is modelled as `List Char`; the big prompt templates are kept
  as Lean `String` literals and converted with `.data`.
* Fallible operations return `Except`/`Option`.
* The single floating-point operation appearing in the core
  (`len(truncated_content) * 0.7` in `truncate_response`) is modelled
  exactly, by rounding the exact integer product to 53 significant bits
  with round-to-nearest-even (IEEE 754 binary64 semantics).
* The LLM backend is an opaque oracle `gen : GraphState → Role → List Char`;
  the state machine is modelled for runs in which every generation call
  eventually succeeds (a failure aborts the run, producing no transcript
  turn, per `retry_with_backoff`).
* Wall-clock artefacts (the `timestamp` field of `DebateTurn`, the backoff
  sleeps) have no influence on any data and are not modelled.
-/

namespace Debate

/-! ## Retry wrapper — `src/utils.py`, `retry_with_backoff`

The decorator runs the wrapped call up to `max_retries + 1` times
(`for attempt in range(max_retries + 1)`).  A successful attempt returns
its value at once; a failure at attempt index `max_retries` is re-raised.
With the default `retryable_exceptions = (Exception,)` every failure is
retryable, so a failing attempt is simply `Except.error`.  The i-th
invocation of the wrapped function is modelled by `attempts i`. -/

def retryFrom {E A : Type} (attempts : Nat → Except E A) : Nat → Nat → Except E A
  | attempt, 0 => attempts attempt
  | attempt, remaining + 1 =>
    match attempts attempt with
    | .ok a => .ok a
    | .error _ => retryFrom attempts (attempt + 1) remaining

def retry_with_backoff {E A : Type} (max_retries : Nat)
    (attempts : Nat → Except E A) : Except E A :=
  retryFrom attempts 0 max_retries

lemma retryFrom_first_success {E A : Type} (attempts : Nat → Except E A) :
    ∀ (j remaining start : Nat) (a : A), j ≤ remaining →
      (∀ i, i < j → ∃ er, attempts (start + i) = .error er) →
      attempts (start + j) = .ok a →
      retryFrom attempts start remaining = .ok a := by
  intro j
  induction j with
  | zero =>
    intro remaining start a _ _ hok
    rw [Nat.add_zero] at hok
    cases remaining with
    | zero => simpa [retryFrom] using hok
    | succ r => simp only [retryFrom]; rw [hok]
  | succ j ih =>
    intro remaining start a hle herr hok
    obtain ⟨r, rfl⟩ : ∃ r, remaining = r + 1 := ⟨remaining - 1, by omega⟩
    obtain ⟨er, he⟩ := herr 0 (Nat.succ_pos j)
    simp only [retryFrom]
    rw [show start + 0 = start by omega] at he
    rw [he]
    exact ih r (start + 1) a (by omega)
      (fun i hi => by
        have := herr (i + 1) (by omega)
        rwa [show start + (i + 1) = start + 1 + i by omega] at this)
      (by rwa [show start + 1 + j = start + (j + 1) by omega])

lemma retryFrom_all_error {E A : Type} (attempts : Nat → Except E A) (e : Nat → E) :
    ∀ (remaining start : Nat),
      (∀ i, start ≤ i → i ≤ start + remaining → attempts i = .error (e i)) →
      retryFrom attempts start remaining = .error (e (start + remaining)) := by
  intro remaining
  induction remaining with
  | zero =>
    intro start h
    simpa [retryFrom] using h start le_rfl (by omega)
  | succ r ih =>
    intro start h
    simp only [retryFrom]
    rw [h start le_rfl (by omega)]
    have := ih (start + 1) (fun i h1 h2 => h i (by omega) (by omega))
    rwa [show start + 1 + r = start + (r + 1) by omega] at this

/-- C3: the retry wrapper with budget `max_retries` (a) returns the
successful result when the call fails exactly `max_retries` times and then
succeeds, raising nothing; (b) re-raises the final underlying exception
when the call fails `max_retries + 1` times; and (c) any attempt that
throws no exception terminates the loop at once with its result — the
outcome does not depend on any later attempt. -/
theorem retry_with_backoff_contract {E A : Type} (max_retries : Nat)
    (attempts : Nat → Except E A) :
    (∀ a, (∀ i, i < max_retries → ∃ er, attempts i = .error er) →
      attempts max_retries = .ok a →
      retry_with_backoff max_retries attempts = .ok a) ∧
    (∀ e : Nat → E, (∀ i, i ≤ max_retries → attempts i = .error (e i)) →
      retry_with_backoff max_retries attempts = .error (e max_retries)) ∧
    (∀ j a, j ≤ max_retries → (∀ i, i < j → ∃ er, attempts i = .error er) →
      attempts j = .ok a →
      ∀ attempts' : Nat → Except E A, (∀ i, i ≤ j → attempts' i = attempts i) →
        retry_with_backoff max_retries attempts' = .ok a) := by
  refine ⟨?_, ?_, ?_⟩
  · intro a herr hok
    exact retryFrom_first_success attempts max_retries max_retries 0 a le_rfl
      (by simpa using herr) (by simpa using hok)
  · intro e h
    have := retryFrom_all_error attempts e max_retries 0
      (fun i h1 h2 => h i (by omega))
    simpa [retry_with_backoff] using this
  · intro j a hj herr hok attempts' hagree
    refine retryFrom_first_success attempts' j max_retries 0 a hj ?_ ?_
    · intro i hi
      obtain ⟨er, he⟩ := herr i hi
      exact ⟨er, by rw [Nat.zero_add, hagree i (by omega)]; simpa using he⟩
    · rw [Nat.zero_add, hagree j le_rfl]; exact hok

/-- Witness for C3: with a call that fails once and then succeeds, a budget
of 2 retries yields the success. -/
theorem retry_with_backoff_contract_witness :
    retry_with_backoff 2
      (fun i => if i = 0 then (Except.error 99 : Except Nat Nat) else .ok 7) =
      .ok 7 :=
  (retry_with_backoff_contract 2
      (fun i => if i = 0 then (Except.error 99 : Except Nat Nat) else .ok 7)).2.2
    1 7 (by omega) (fun i hi => ⟨99, by interval_cases i; rfl⟩) rfl
    _ (fun _ _ => rfl)

/-! ## Text utilities

Python text is modelled as `List Char`.  `pyIsSpace` is the set of
whitespace characters recognised by `str.split()`, `str.strip()` and the
regex class `\s` (the six ASCII whitespace characters; exotic Unicode
whitespace, which behaves identically for every property below, is left
out of the model). -/

def pyIsSpace (c : Char) : Bool :=
  c = ' ' || c = '\t' || c = '\n' || c = '\r' || c = '\x0b' || c = '\x0c'

/-- `windowFree pat l` says that the fixed-length pattern `pat` occurs
nowhere in `l` (no window of `l` of length `pat.length` equals `pat`).
For a nonempty `pat` this is exactly "`pat` is not an infix of `l`". -/
def windowFree (pat l : List Char) : Prop :=
  ∀ i, (l.drop i).take pat.length ≠ pat

lemma windowFree_iff_not_occurs {pat l : List Char} :
    windowFree pat l ↔ ¬ pat <:+: l := by
  constructor
  · rintro h ⟨s, t, rfl⟩
    have := h s.length
    rw [List.append_assoc, List.drop_left, List.take_left] at this
    exact this rfl
  · intro h i hi
    exact h (by
      rw [← hi]
      exact (( List.take_prefix _ _).isInfix).trans ((List.drop_suffix _ _).isInfix))

lemma windowFree_of_short {pat l : List Char} (h : l.length < pat.length) :
    windowFree pat l := by
  intro i hi
  have : ((l.drop i).take pat.length).length < pat.length := by
    simp only [List.length_take, List.length_drop]
    omega
  rw [hi] at this
  omega

lemma windowFree_cons {pat l : List Char} {c : Char}
    (h : windowFree pat l) (h0 : (c :: l).take pat.length ≠ pat) :
    windowFree pat (c :: l) := by
  intro i
  cases i with
  | zero => simpa using h0
  | succ j => simpa using h j

lemma windowFree_drop {pat l : List Char} (h : windowFree pat l) (k : Nat) :
    windowFree pat (l.drop k) := by
  intro i
  rw [List.drop_drop]
  exact h (k + i)

lemma windowFree_take {pat l : List Char} (h : windowFree pat l) (k : Nat) :
    windowFree pat (l.take k) := by
  intro i hi
  rw [List.drop_take] at hi
  rcases Nat.lt_or_ge (k - i) pat.length with hlt | hge
  · have : ((l.drop i).take (k - i) |>.take pat.length).length < pat.length := by
      simp only [List.length_take, List.length_drop]
      omega
    rw [hi] at this
    omega
  · rw [List.take_take, Nat.min_eq_left hge] at hi
    exact h i hi

lemma windowFree_of_not_mem {pat l : List Char} {a : Char}
    (ha : a ∈ pat) (hl : a ∉ l) : windowFree pat l := by
  intro i hi
  apply hl
  rw [← hi] at ha
  exact ((List.take_sublist _ _).trans (List.drop_sublist _ _)).mem ha

/-! ## Response cleaning — `src/utils.py`, `clean_response`

```python
content = content.replace("\r\n", "\n")        # normNewlines
content = re.sub(r"\n{3,}", "\n\n", content)   # collapseNL
return content.strip()                         # pyStrip
```
-/

/-- `str.replace("\r\n", "\n")`: left-to-right replacement of
non-overlapping occurrences. -/
def normNewlines : List Char → List Char
  | [] => []
  | [c] => [c]
  | c :: d :: rest =>
    if c = '\r' ∧ d = '\n' then '\n' :: normNewlines rest
    else c :: normNewlines (d :: rest)

/-- Helper for `collapseNL`: `pending` counts the newline run read so far;
a maximal run of `k` newlines is emitted as `min k 2` newlines, which is
exactly `re.sub(r"\n{3,}", "\n\n", ·)` (runs of ≤ 2 are kept, runs of ≥ 3
become two). -/
def collapseAux : Nat → List Char → List Char
  | pending, [] => List.replicate (min pending 2) '\n'
  | pending, c :: rest =>
    if c = '\n' then collapseAux (pending + 1) rest
    else List.replicate (min pending 2) '\n' ++ c :: collapseAux 0 rest

def collapseNL (l : List Char) : List Char := collapseAux 0 l

/-- `str.strip()` (both-ends whitespace trim). -/
def ltrim (l : List Char) : List Char := l.dropWhile pyIsSpace

def rtrim (l : List Char) : List Char := (l.reverse.dropWhile pyIsSpace).reverse

def pyStrip (l : List Char) : List Char := rtrim (ltrim l)

def clean_response (content : List Char) : List Char :=
  pyStrip (collapseNL (normNewlines content))

/-! ### Facts about `clean_response` -/

/-- The pattern of three consecutive newlines. -/
def nnn : List Char := ['\n', '\n', '\n']

/-- The Windows line ending. -/
def crlf : List Char := ['\r', '\n']

lemma windowFree_nnn_cons {T : List Char} {c : Char} (hc : c ≠ '\n')
    (h : windowFree nnn T) : windowFree nnn (c :: T) := by
  refine windowFree_cons h ?_
  intro he
  rw [show nnn.length = 3 from rfl, show (c :: T).take 3 = c :: T.take 2 from rfl,
    show nnn = ['\n', '\n', '\n'] from rfl] at he
  injection he with h1 _
  exact hc h1

lemma windowFree_nnn_nl_cons {T : List Char} {c : Char} (hc : c ≠ '\n')
    (h : windowFree nnn (c :: T)) : windowFree nnn ('\n' :: c :: T) := by
  refine windowFree_cons h ?_
  intro he
  rw [show nnn.length = 3 from rfl,
    show ('\n' :: c :: T).take 3 = '\n' :: c :: T.take 1 from rfl,
    show nnn = ['\n', '\n', '\n'] from rfl] at he
  injection he with _ h2
  injection h2 with h3 _
  exact hc h3

lemma windowFree_nnn_nl_nl_cons {T : List Char} {c : Char} (hc : c ≠ '\n')
    (h : windowFree nnn ('\n' :: c :: T)) :
    windowFree nnn ('\n' :: '\n' :: c :: T) := by
  refine windowFree_cons h ?_
  intro he
  rw [show nnn.length = 3 from rfl,
    show ('\n' :: '\n' :: c :: T).take 3 = '\n' :: '\n' :: c :: T.take 0 from rfl,
    show nnn = ['\n', '\n', '\n'] from rfl] at he
  injection he with _ h2
  injection h2 with _ h3
  injection h3 with h4 _
  exact hc h4

lemma collapseAux_windowFree (l : List Char) : ∀ n, windowFree nnn (collapseAux n l) := by
  induction l with
  | nil =>
    intro n
    refine windowFree_of_short ?_
    simp only [collapseAux, List.length_replicate, nnn, List.length_cons]
    omega
  | cons c rest ih =>
    intro n
    by_cases hc : c = '\n'
    · subst hc
      simp only [collapseAux, if_pos]
      exact ih (n + 1)
    · have hcT : windowFree nnn (c :: collapseAux 0 rest) :=
        windowFree_nnn_cons hc (ih 0)
      simp only [collapseAux, if_neg hc]
      rcases n with _ | _ | n
      · simpa using hcT
      · simpa using windowFree_nnn_nl_cons hc hcT
      · rw [show min (n + 1 + 1) 2 = 2 by omega]
        simpa using windowFree_nnn_nl_nl_cons hc (windowFree_nnn_nl_cons hc hcT)

lemma collapseNL_windowFree (l : List Char) : windowFree nnn (collapseNL l) :=
  collapseAux_windowFree l 0

lemma collapseAux_of_windowFree :
    ∀ (l : List Char) (n : Nat), n ≤ 2 →
      windowFree nnn (List.replicate n '\n' ++ l) →
      collapseAux n l = List.replicate n '\n' ++ l := by
  intro l
  induction l with
  | nil =>
    intro n hn _
    simp only [collapseAux, List.append_nil]
    rw [Nat.min_eq_left hn]
  | cons c rest ih =>
    intro n hn h
    by_cases hc : c = '\n'
    · subst hc
      have hrw : List.replicate n '\n' ++ '\n' :: rest =
          List.replicate (n + 1) '\n' ++ rest := by
        rw [List.replicate_succ', List.append_assoc, List.singleton_append]
      have hn1 : n + 1 ≤ 2 := by
        rcases Nat.lt_or_ge n 2 with h2 | h2
        · omega
        · exfalso
          have hn2 : n = 2 := by omega
          subst hn2
          have := h 0
          exact this rfl
      simp only [collapseAux, if_pos]
      rw [ih (n + 1) hn1 (hrw ▸ h), hrw]
    · have hrest : windowFree nnn rest := by
        have := windowFree_drop h (n + 1)
        rwa [show (List.replicate n '\n' ++ c :: rest).drop (n + 1) = rest by
          rw [show n + 1 = (List.replicate n '\n').length + 1 by simp]
          rw [show (List.replicate n '\n').length + 1 =
            (List.replicate n '\n' ++ [c]).length by simp]
          rw [show List.replicate n '\n' ++ c :: rest =
            (List.replicate n '\n' ++ [c]) ++ rest by
              rw [List.append_assoc, List.singleton_append]]
          exact List.drop_left _ _] at this
      simp only [collapseAux, if_neg hc]
      rw [ih 0 (by omega) (by simpa using hrest), Nat.min_eq_left hn]
      simp

lemma collapseNL_of_windowFree {l : List Char} (h : windowFree nnn l) :
    collapseNL l = l := by
  simpa using collapseAux_of_windowFree l 0 (by omega) (by simpa using h)

lemma normNewlines_of_windowFree :
    ∀ l : List Char, windowFree crlf l → normNewlines l = l := by
  intro l
  induction l using normNewlines.induct with
  | case1 => intro _; rfl
  | case2 c => intro _; rfl
  | case3 c d rest hcd _ =>
    intro h
    exfalso
    obtain ⟨hc, hd⟩ := hcd
    subst hc; subst hd
    exact h 0 rfl
  | case4 c d rest hcd ih =>
    intro h
    rw [normNewlines, if_neg hcd, ih (windowFree_drop h 1)]

/-! Strip lemmas. -/

lemma dropWhile_dropWhile (p : Char → Bool) (l : List Char) :
    (l.dropWhile p).dropWhile p = l.dropWhile p := by
  induction l with
  | nil => rfl
  | cons c t ih =>
    by_cases h : p c
    · simp only [List.dropWhile_cons, h, if_true]
      exact ih
    · simp only [List.dropWhile_cons, h]
      simp [h]

lemma ltrim_suffix (l : List Char) : ltrim l <:+ l := List.dropWhile_suffix _

lemma rtrim_prefix_self (l : List Char) : rtrim l <+: l := by
  have : (l.reverse.dropWhile pyIsSpace).reverse <+: l.reverse.reverse := by
    rw [ List.reverse_prefix]
    exact List.dropWhile_suffix _
  simpa using this

lemma ltrim_idem (l : List Char) : ltrim (ltrim l) = ltrim l :=
  dropWhile_dropWhile _ l

lemma rtrim_idem (l : List Char) : rtrim (rtrim l) = rtrim l := by
  unfold rtrim
  rw [List.reverse_reverse, dropWhile_dropWhile]

lemma ltrim_take_of_ltrim_eq {z : List Char} (hz : ltrim z = z) (k : Nat) :
    ltrim (z.take k) = z.take k := by
  cases z with
  | nil => simp [ltrim]
  | cons c t =>
    have hc : ¬ pyIsSpace c := by
      intro hc
      have hlen : (ltrim (c :: t)).length ≤ t.length := by
        unfold ltrim
        rw [List.dropWhile_cons, if_pos hc]
        exact (List.dropWhile_suffix _).length_le
      rw [hz] at hlen
      simp at hlen
    cases k with
    | zero => simp [ltrim]
    | succ k' =>
      rw [List.take_succ_cons]
      unfold ltrim
      rw [List.dropWhile_cons, if_neg hc]

lemma ltrim_of_prefix_of_ltrim_eq {z w : List Char} (hz : ltrim z = z)
    (hw : w <+: z) : ltrim w = w := by
  rw [List.prefix_iff_eq_take.mp hw]
  exact ltrim_take_of_ltrim_eq hz _

lemma pyStrip_idem (l : List Char) : pyStrip (pyStrip l) = pyStrip l := by
  unfold pyStrip
  rw [ltrim_of_prefix_of_ltrim_eq (ltrim_idem l) (rtrim_prefix_self (ltrim l)),
    rtrim_idem]

lemma windowFree_of_leading {pat w l : List Char} (hw : w <+: l)
    (h : windowFree pat l) : windowFree pat w := by
  rw [List.prefix_iff_eq_take.mp hw]
  exact windowFree_take h _

lemma windowFree_of_suffix {pat w l : List Char} (hw : w <:+ l)
    (h : windowFree pat l) : windowFree pat w := by
  rw [List.suffix_iff_eq_drop.mp hw]
  exact windowFree_drop h _

lemma windowFree_pyStrip {pat l : List Char} (h : windowFree pat l) :
    windowFree pat (pyStrip l) :=
  windowFree_of_leading (rtrim_prefix_self _) (windowFree_of_suffix (ltrim_suffix l) h)

lemma clean_response_windowFree_nnn (x : List Char) :
    windowFree nnn (clean_response x) :=
  windowFree_pyStrip (collapseNL_windowFree _)

/-- C6 counterexample: `clean_response` is not idempotent.  On
`"a\r\r\nb"` the first `replace("\r\n", "\n")` pass turns `"\r\r\n"` into
`"\r\n"`, which a second pass then removes, so
`clean("a\r\r\nb") = "a\r\nb"` while `clean(clean("a\r\r\nb")) = "a\nb"`. -/
theorem clean_response_not_idempotent :
    clean_response (clean_response "a\r\r\nb".data) ≠
      clean_response "a\r\r\nb".data ∧
    clean_response "a\r\r\nb".data = "a\r\nb".data ∧
    clean_response (clean_response "a\r\r\nb".data) = "a\nb".data := by
  refine ⟨by decide, by decide, by decide⟩

/-- C6 (amended): `clean_response` is idempotent on every input whose
cleaned form contains no `"\r\n"` substring — in particular on every input
without a carriage return.  (The unrestricted claim fails; see the
counterexample: an input containing `"\r\r\n"` cleans to a text that still
contains `"\r\n"`, which a second clean rewrites again.) -/
theorem clean_response_idempotent_of_no_crlf (x : List Char)
    (h : windowFree crlf (clean_response x)) :
    clean_response (clean_response x) = clean_response x := by
  have h1 : normNewlines (clean_response x) = clean_response x :=
    normNewlines_of_windowFree _ h
  have h2 : collapseNL (clean_response x) = clean_response x :=
    collapseNL_of_windowFree (clean_response_windowFree_nnn x)
  show pyStrip (collapseNL (normNewlines (clean_response x))) = clean_response x
  rw [h1, h2]
  exact pyStrip_idem _

/-- Witness for the amended C6 at a concrete input (one that contains both a
`"\r\n"` and an excessive blank-line run). -/
theorem clean_response_idempotent_of_no_crlf_witness :
    windowFree crlf (clean_response "ab\r\ncd\n\n\n\nef".data) ∧
    clean_response (clean_response "ab\r\ncd\n\n\n\nef".data) =
      clean_response "ab\r\ncd\n\n\n\nef".data := by
  have hwf : windowFree crlf (clean_response "ab\r\ncd\n\n\n\nef".data) :=
    windowFree_of_not_mem (a := '\r') (by decide) (by decide)
  exact ⟨hwf, clean_response_idempotent_of_no_crlf _ hwf⟩

/-! ## Response truncation — `src/utils.py`, `truncate_response`

```python
words = content.split()
if len(words) <= max_words:
    return content
truncated_words = words[:max_words]
truncated_content = " ".join(truncated_words)
last_period = truncated_content.rfind(".")
if last_period > len(truncated_content) * 0.7:
    truncated_content = truncated_content[:last_period + 1]
return truncated_content
```
-/

/-- `str.split()` (no separator): split on runs of whitespace, dropping
empty pieces.  `acc` holds the reversed word currently being read. -/
def splitAux : List Char → List Char → List (List Char)
  | [], acc => if acc = [] then [] else [acc.reverse]
  | c :: rest, acc =>
    if pyIsSpace c then
      if acc = [] then splitAux rest [] else acc.reverse :: splitAux rest []
    else splitAux rest (c :: acc)

def pySplit (l : List Char) : List (List Char) := splitAux l []

/-- `count_words` from `src/utils.py`: `len(text.split())`. -/
def count_words (text : List Char) : Nat := (pySplit text).length

/-- `" ".join(words)`. -/
def joinWords : List (List Char) → List Char
  | [] => []
  | [w] => w
  | w :: ws => w ++ ' ' :: joinWords ws

/-- `str.rfind(".")`, with `-1` (not found) modelled as `none`. -/
def rfindDot (l : List Char) : Option Nat :=
  match l.reverse.findIdx? (· = '.') with
  | some i => some (l.length - 1 - i)
  | none => none

/-! ### The floating-point comparison `last_period > len * 0.7`

The only floating-point operation in the core.  Python evaluates
`len * 0.7` in IEEE 754 binary64: `0.7` is the double `c07 / 2 ^ 52`,
the product (for `len < 2 ^ 53`, when the int-to-double conversion is
exact) is the real number `len * c07 / 2 ^ 52` rounded to 53 significant
bits with round-to-nearest, ties-to-even; the comparison of a Python int
against a float is exact.  `dblRound N` rounds the integer `N` to 53
significant bits, so the double produced by `len * 0.7` is exactly
`dblRound (len * c07) / 2 ^ 52`. -/

/-- The integer significand of the binary64 number closest to `0.7`
(`0.7 = c07 / 2 ^ 52` after rounding; `10 * c07 + 2 = 7 * 2 ^ 52`). -/
def c07 : Nat := 3152519739159347

/-- Smallest `s` with `M / 2 ^ s < 2 ^ 53`, computed with explicit fuel
(structural recursion, so that the kernel can evaluate it). -/
def findShift : Nat → Nat → Nat
  | 0, _ => 0
  | fuel + 1, M => if M < 2 ^ 53 then 0 else findShift fuel (M / 2) + 1

/-- Round `N` to the multiple of `2 ^ s` nearest to it, ties-to-even. -/
def dblRoundAt (N s : Nat) : Nat :=
  if 2 ^ s < 2 * (N % 2 ^ s) ∨
      (2 * (N % 2 ^ s) = 2 ^ s ∧ (N / 2 ^ s) % 2 = 1) then
    (N / 2 ^ s + 1) * 2 ^ s
  else (N / 2 ^ s) * 2 ^ s

/-- Round the integer `N` to 53 significant binary digits,
round-to-nearest, ties-to-even. -/
def dblRound (N : Nat) : Nat :=
  if N < 2 ^ 53 then N else dblRoundAt N (findShift N N)

/-- The Python comparison `p > n * 0.7` (`p`, `n` nonnegative ints,
`n < 2 ^ 53`): the float `n * 0.7` is `dblRound (n * c07) / 2 ^ 52` and
int-float comparison is exact. -/
def pyGt07 (p n : Nat) : Bool := dblRound (n * c07) < p * 2 ^ 52

/-- The sentence-boundary post-processing applied to the hard word cut
(`truncated_content` in the source). -/
def truncateAt (truncated_content : List Char) : List Char :=
  match rfindDot truncated_content with
  | none => truncated_content
  | some last_period =>
    if pyGt07 last_period truncated_content.length then
      truncated_content.take (last_period + 1)
    else truncated_content

def truncate_response (content : List Char) (max_words : Nat) : List Char :=
  if (pySplit content).length ≤ max_words then content
  else truncateAt (joinWords ((pySplit content).take max_words))

/-! ### Facts about `pySplit` and `joinWords` -/

lemma splitAux_wf : ∀ (l acc : List Char), (∀ c ∈ acc, pyIsSpace c = false) →
    ∀ w ∈ splitAux l acc, w ≠ [] ∧ ∀ c ∈ w, pyIsSpace c = false := by
  intro l
  induction l with
  | nil =>
    intro acc hacc w hw
    by_cases h : acc = []
    · subst h; simp [splitAux] at hw
    · simp only [splitAux, if_neg h, List.mem_singleton] at hw
      subst hw
      exact ⟨by simpa using h, fun c hc => hacc c (List.mem_reverse.mp hc)⟩
  | cons c rest ih =>
    intro acc hacc w hw
    by_cases hsp : pyIsSpace c
    · by_cases h : acc = []
      · subst h
        simp only [splitAux, if_pos hsp, if_pos rfl] at hw
        exact ih [] (by simp) w hw
      · simp only [splitAux, if_pos hsp, if_neg h, List.mem_cons] at hw
        rcases hw with rfl | hw'
        · exact ⟨by simpa using h, fun c hc => hacc c (List.mem_reverse.mp hc)⟩
        · exact ih [] (by simp) w hw'
    · simp only [splitAux, if_neg hsp] at hw
      refine ih (c :: acc) ?_ w hw
      intro d hd
      rcases List.mem_cons.mp hd with rfl | hd'
      · simpa using hsp
      · exact hacc d hd'

lemma pySplit_wf (l : List Char) :
    ∀ w ∈ pySplit l, w ≠ [] ∧ ∀ c ∈ w, pyIsSpace c = false :=
  splitAux_wf l [] (by simp)

lemma splitAux_length_pos :
    ∀ (l acc : List Char), acc ≠ [] → 1 ≤ (splitAux l acc).length := by
  intro l
  induction l with
  | nil => intro acc h; simp [splitAux, if_neg h]
  | cons c rest ih =>
    intro acc h
    by_cases hsp : pyIsSpace c
    · simp [splitAux, if_pos hsp, if_neg h]
    · simp only [splitAux, if_neg hsp]
      exact ih (c :: acc) (by simp)

lemma splitAux_take_le :
    ∀ (l : List Char) (p : Nat) (acc : List Char),
      (splitAux (l.take p) acc).length ≤ (splitAux l acc).length := by
  intro l
  induction l with
  | nil => intro p acc; simp
  | cons c rest ih =>
    intro p acc
    cases p with
    | zero =>
      simp only [List.take_zero]
      by_cases h : acc = []
      · subst h; simp [splitAux]
      · simp only [splitAux, if_neg h, List.length_singleton]
        by_cases hsp : pyIsSpace c
        · simp [splitAux, if_pos hsp, if_neg h]
        · simp only [splitAux, if_neg hsp]
          exact splitAux_length_pos rest (c :: acc) (by simp)
    | succ p' =>
      rw [List.take_succ_cons]
      by_cases hsp : pyIsSpace c
      · by_cases h : acc = []
        · subst h
          simp only [splitAux, if_pos hsp, if_pos rfl]
          exact ih p' []
        · simp only [splitAux, if_pos hsp, if_neg h, List.length_cons]
          exact Nat.succ_le_succ (ih p' [])
      · simp only [splitAux, if_neg hsp]
        exact ih p' (c :: acc)

lemma count_words_take_le (l : List Char) (p : Nat) :
    count_words (l.take p) ≤ count_words l :=
  splitAux_take_le l p []

lemma splitAux_word_append :
    ∀ (w l acc : List Char), (∀ c ∈ w, pyIsSpace c = false) →
      splitAux (w ++ l) acc = splitAux l (w.reverse ++ acc) := by
  intro w
  induction w with
  | nil => intro l acc _; simp
  | cons c w' ih =>
    intro l acc h
    have hc : pyIsSpace c = false := h c (List.mem_cons_self c w')
    simp only [List.cons_append, splitAux, hc, Bool.false_eq_true, if_false,
      List.append_eq]
    rw [ih l (c :: acc) (fun d hd => h d (List.mem_cons_of_mem c hd))]
    congr 1
    rw [List.reverse_cons, List.append_assoc, List.singleton_append]

lemma pySplit_joinWords :
    ∀ ws : List (List Char),
      (∀ w ∈ ws, w ≠ [] ∧ ∀ c ∈ w, pyIsSpace c = false) →
      pySplit (joinWords ws) = ws := by
  intro ws
  induction ws with
  | nil => intro _; rfl
  | cons w ws2 ih =>
    intro h
    obtain ⟨hne, hns⟩ := h w (List.mem_cons_self w ws2)
    cases ws2 with
    | nil =>
      show pySplit w = [w]
      have := splitAux_word_append w [] [] hns
      rw [List.append_nil] at this
      unfold pySplit
      rw [this]
      simp [splitAux, hne]
    | cons w2 rest =>
      show pySplit (w ++ ' ' :: joinWords (w2 :: rest)) = w :: w2 :: rest
      unfold pySplit
      rw [splitAux_word_append w _ [] hns, List.append_nil]
      have hsp : pyIsSpace ' ' = true := by decide
      have hrne : w.reverse ≠ [] := by simpa using hne
      simp only [splitAux, hsp, if_pos, if_neg hrne, List.reverse_reverse]
      rw [show splitAux (joinWords (w2 :: rest)) [] =
        pySplit (joinWords (w2 :: rest)) from rfl]
      rw [ih (fun u hu => h u (List.mem_cons_of_mem w hu))]

lemma count_words_joinWords (ws : List (List Char))
    (h : ∀ w ∈ ws, w ≠ [] ∧ ∀ c ∈ w, pyIsSpace c = false) :
    count_words (joinWords ws) = ws.length := by
  rw [count_words, pySplit_joinWords ws h]

/-- C7: truncation never increases the word count beyond the limit, and is
a no-op whenever the input is already within the limit. -/
theorem truncate_response_word_count (x : List Char) (k : Nat) (hk : 0 < k) :
    count_words (truncate_response x k) ≤ k ∧
    (count_words x ≤ k → truncate_response x k = x) := by
  constructor
  · by_cases h : (pySplit x).length ≤ k
    · rw [truncate_response, if_pos h]
      exact h
    · rw [truncate_response, if_neg h]
      have hwf : ∀ w ∈ (pySplit x).take k, w ≠ [] ∧ ∀ c ∈ w, pyIsSpace c = false :=
        fun w hw => pySplit_wf x w (List.take_subset _ _ hw)
      have hcw : count_words (joinWords ((pySplit x).take k)) =
          ((pySplit x).take k).length := count_words_joinWords _ hwf
      have hlen : ((pySplit x).take k).length ≤ k := by
        rw [List.length_take]; omega
      unfold truncateAt
      split
      · rw [hcw]; exact hlen
      · split
        · exact le_trans (count_words_take_le _ _) (hcw ▸ hlen)
        · rw [hcw]; exact hlen
  · intro h
    exact if_pos (h : (pySplit x).length ≤ k)

/-- Witness for C7 at a concrete over-limit input. -/
theorem truncate_response_word_count_witness :
    0 < 2 ∧ count_words (truncate_response "one two three".data 2) ≤ 2 ∧
      (count_words "one two three".data ≤ 2 →
        truncate_response "one two three".data 2 = "one two three".data) :=
  ⟨by decide, truncate_response_word_count "one two three".data 2 (by decide)⟩

/-! ### Exactness of the float comparison away from the 70 % boundary -/

lemma findShift_spec : ∀ (fuel M : Nat), 2 ^ 53 ≤ M → M < 2 ^ (53 + fuel) →
    2 ^ (52 + findShift fuel M) ≤ M ∧ M < 2 ^ (53 + findShift fuel M) := by
  intro fuel
  induction fuel with
  | zero =>
    intro M h1 h2
    rw [Nat.add_zero] at h2
    omega
  | succ fuel ih =>
    intro M h1 h2
    rw [findShift, if_neg (not_lt.mpr h1)]
    by_cases h : M / 2 < 2 ^ 53
    · have h0 : findShift fuel (M / 2) = 0 := by
        cases fuel with
        | zero => rfl
        | succ f => rw [findShift, if_pos h]
      rw [h0]
      refine ⟨by simpa using h1, ?_⟩
      have hp : (2 : Nat) ^ 54 = 2 * 2 ^ 53 := by norm_num
      have : M < 2 ^ 54 := by omega
      simpa using this
    · have hp : (2 : Nat) ^ (53 + (fuel + 1)) = 2 * 2 ^ (53 + fuel) := by
        rw [show 53 + (fuel + 1) = (53 + fuel) + 1 by omega, pow_succ]
        ring
      obtain ⟨ha, hb⟩ := ih (M / 2) (by omega) (by omega)
      constructor
      · have hq : (2 : Nat) ^ (52 + (findShift fuel (M / 2) + 1)) =
            2 * 2 ^ (52 + findShift fuel (M / 2)) := by
          rw [show 52 + (findShift fuel (M / 2) + 1) =
            (52 + findShift fuel (M / 2)) + 1 by omega, pow_succ]
          ring
        omega
      · have hq : (2 : Nat) ^ (53 + (findShift fuel (M / 2) + 1)) =
            2 * 2 ^ (53 + findShift fuel (M / 2)) := by
          rw [show 53 + (findShift fuel (M / 2) + 1) =
            (53 + findShift fuel (M / 2)) + 1 by omega, pow_succ]
          ring
        omega

lemma dblRoundAt_bounds (N s : Nat) :
    dblRoundAt N s ≤ N + 2 ^ s ∧ N ≤ dblRoundAt N s + 2 ^ s := by
  have h1 : N / 2 ^ s * 2 ^ s ≤ N := Nat.div_mul_le_self N (2 ^ s)
  have h2 : N < N / 2 ^ s * 2 ^ s + 2 ^ s := by
    calc N = 2 ^ s * (N / 2 ^ s) + N % 2 ^ s := (Nat.div_add_mod N (2 ^ s)).symm
      _ < 2 ^ s * (N / 2 ^ s) + 2 ^ s :=
        Nat.add_lt_add_left (Nat.mod_lt _ (by positivity)) _
      _ = N / 2 ^ s * 2 ^ s + 2 ^ s := by ring_nf
  unfold dblRoundAt
  split
  · rw [Nat.succ_mul]
    exact ⟨Nat.add_le_add_right h1 _,
      le_trans (le_of_lt h2) (Nat.le_add_right _ _)⟩
  · exact ⟨le_trans h1 (Nat.le_add_right N _), le_of_lt h2⟩

lemma dblRound_bounds (N : Nat) (h : 2 ^ 53 ≤ N) :
    ∃ E : Nat, 0 < E ∧ 2 ^ 52 * E ≤ N ∧ dblRound N ≤ N + E ∧ N ≤ dblRound N + E := by
  have hfin : N < 2 ^ (53 + N) :=
    lt_of_lt_of_le (Nat.lt_two_pow N) (Nat.pow_le_pow_right (by norm_num) (by omega))
  obtain ⟨ha, _⟩ := findShift_spec N N h hfin
  refine ⟨2 ^ findShift N N, by positivity, ?_, ?_, ?_⟩
  · rw [← pow_add]; exact ha
  · rw [dblRound, if_neg (not_lt.mpr h)]; exact (dblRoundAt_bounds N _).1
  · rw [dblRound, if_neg (not_lt.mpr h)]; exact (dblRoundAt_bounds N _).2

lemma c07_key (n : Nat) : 10 * (n * c07) + 2 * n = 7 * n * 4503599627370496 := by
  unfold c07
  ring_nf

/-- Strictly past 70 % (`10 p ≥ 7 n + 1`), the float comparison
`p > n * 0.7` is true (for any text length `n ≤ 2 ^ 48`). -/
lemma pyGt07_eq_true {p n : Nat} (hn : n ≤ 2 ^ 48) (h : 7 * n + 1 ≤ 10 * p) :
    pyGt07 p n = true := by
  rw [pyGt07, decide_eq_true_eq]
  have e52 : (2 : Nat) ^ 52 = 4503599627370496 := by norm_num
  have e48 : (2 : Nat) ^ 48 = 281474976710656 := by norm_num
  have hc := c07_key n
  rw [e48] at hn
  rw [e52]
  rcases lt_or_ge (n * c07) (2 ^ 53) with hlt | hge
  · rw [dblRound, if_pos hlt]
    omega
  · obtain ⟨E, hE0, hEN, hub, hlb⟩ := dblRound_bounds _ hge
    rw [e52] at hEN
    omega

/-- Strictly before 70 % (`10 p ≤ 7 n - 1`), the float comparison
`p > n * 0.7` is false (for any text length `n ≤ 2 ^ 48`). -/
lemma pyGt07_eq_false {p n : Nat} (hn : n ≤ 2 ^ 48) (h : 10 * p + 1 ≤ 7 * n) :
    pyGt07 p n = false := by
  rw [pyGt07, decide_eq_false_iff_not, not_lt]
  have e52 : (2 : Nat) ^ 52 = 4503599627370496 := by norm_num
  have e48 : (2 : Nat) ^ 48 = 281474976710656 := by norm_num
  have e53 : (2 : Nat) ^ 53 = 9007199254740992 := by norm_num
  have hc := c07_key n
  rw [e48] at hn
  rw [e52]
  rcases lt_or_ge (n * c07) (2 ^ 53) with hlt | hge
  · rw [dblRound, if_pos hlt]
    rw [e53] at hlt
    omega
  · obtain ⟨E, hE0, hEN, hub, hlb⟩ := dblRound_bounds _ hge
    rw [e52] at hEN
    omega

/-- C8 counterexample: the spec says the cut backs up to the final period
whenever that period lies *at or past* 70 % of the truncated text.  On
`"abcdefg. x y"` with a 2-word limit the hard cut is `"abcdefg. x"`
(10 characters) whose last period sits at index 7 — exactly 70 % — yet the
code does not back up, because `7 > 10 * 0.7` is false in binary64
(`10 * 0.7 == 7.0` exactly). -/
theorem truncate_response_at_boundary_no_backup :
    truncate_response "abcdefg. x y".data 2 = "abcdefg. x".data ∧
    rfindDot "abcdefg. x".data = some 7 ∧
    ("abcdefg. x".data).length = 10 ∧
    10 * 7 ≥ 7 * 10 ∧
    truncate_response "abcdefg. x y".data 2 ≠ "abcdefg.".data := by
  exact ⟨by decide, by decide, by decide, by decide, by decide⟩

/-- C8 (amended): when the response exceeds the word limit, the code cuts
to exactly `max_words` words and then backs up to the last period iff the
IEEE-754 comparison `last_period > len * 0.7` holds; in particular (for
any realistic length `≤ 2 ^ 48`) it always backs up when the period is
strictly past 70 % of the truncated text and never when strictly before;
at exactly 70 % the outcome follows binary64 rounding (e.g. no backup at
length 10 with period index 7).  If no period exists, the hard cut is
returned unchanged. -/
theorem truncate_response_period_backup (x : List Char) (k : Nat)
    (hover : ¬ count_words x ≤ k) :
    (rfindDot (joinWords ((pySplit x).take k)) = none →
      truncate_response x k = joinWords ((pySplit x).take k)) ∧
    (∀ p, rfindDot (joinWords ((pySplit x).take k)) = some p →
      (joinWords ((pySplit x).take k)).length ≤ 2 ^ 48 →
      ((7 * (joinWords ((pySplit x).take k)).length + 1 ≤ 10 * p →
        truncate_response x k = (joinWords ((pySplit x).take k)).take (p + 1)) ∧
       (10 * p + 1 ≤ 7 * (joinWords ((pySplit x).take k)).length →
        truncate_response x k = joinWords ((pySplit x).take k)))) := by
  have hu : truncate_response x k = truncateAt (joinWords ((pySplit x).take k)) := by
    rw [truncate_response]
    exact if_neg (fun hh => hover hh)
  constructor
  · intro hrf
    rw [hu]
    unfold truncateAt
    simp only [hrf]
  · intro p hrf hlen
    constructor
    · intro hpast
      rw [hu]
      unfold truncateAt
      simp [hrf, pyGt07_eq_true hlen hpast]
    · intro hbefore
      rw [hu]
      unfold truncateAt
      simp [hrf, pyGt07_eq_false hlen hbefore]

/-- Witness for the amended C8: a strictly-past-70 % period triggers the
backup (`"aaaaaaaa. b"` has its period at index 8 of 11 characters). -/
theorem truncate_response_period_backup_witness :
    ¬ count_words "aaaaaaaa. b c".data ≤ 2 ∧
    truncate_response "aaaaaaaa. b c".data 2 = "aaaaaaaa.".data :=
  ⟨by decide,
    by
      have h := (truncate_response_period_backup "aaaaaaaa. b c".data 2
        (by decide)).2 8 (by decide) (by decide)
      rw [h.1 (by decide)]
      decide⟩

lemma windowFree_ss_of_no_space {w : List Char}
    (h : ∀ c ∈ w, pyIsSpace c = false) : windowFree [' ', ' '] w :=
  windowFree_of_not_mem (a := ' ') (by decide)
    (fun hmem => absurd (h ' ' hmem) (by decide))

lemma joinWords_head_not_space (w : List Char) (ws : List (List Char))
    (hne : w ≠ []) :
    ∀ hd, (joinWords (w :: ws)).head? = some hd → hd ∈ w := by
  intro hd hhd
  cases w with
  | nil => exact absurd rfl hne
  | cons c w' =>
    cases ws with
    | nil =>
      simp only [joinWords, List.head?_cons, Option.some.injEq] at hhd
      simp [← hhd]
    | cons w2 rest =>
      simp only [joinWords, List.cons_append, List.head?_cons,
        Option.some.injEq] at hhd
      simp [← hhd]

lemma windowFree_ss_append (w J : List Char)
    (hw : ∀ c ∈ w, pyIsSpace c = false) (hJ : windowFree [' ', ' '] J)
    (hJh : ∀ hd, J.head? = some hd → pyIsSpace hd = false) :
    windowFree [' ', ' '] (w ++ ' ' :: J) := by
  induction w with
  | nil =>
    simp only [List.nil_append]
    refine windowFree_cons hJ ?_
    cases J with
    | nil => decide
    | cons hd tl =>
      intro he
      rw [show ([' ', ' '] : List Char).length = 2 from rfl,
        show (' ' :: hd :: tl).take 2 = [' ', hd] from rfl] at he
      injection he with _ h2
      injection h2 with h3 _
      have := hJh hd rfl
      rw [h3] at this
      exact absurd this (by decide)
  | cons c w' ih =>
    have hc : pyIsSpace c = false := hw c (List.mem_cons_self c w')
    have ihh := ih (fun d hd => hw d (List.mem_cons_of_mem c hd))
    simp only [List.cons_append]
    refine windowFree_cons ihh ?_
    intro he
    rw [show ([' ', ' '] : List Char).length = 2 from rfl,
      show (c :: (w' ++ ' ' :: J)).take 2 = c :: (w' ++ ' ' :: J).take 1
        from rfl] at he
    injection he with h1 _
    rw [h1] at hc
    exact absurd hc (by decide)

lemma joinWords_windowFree_ss :
    ∀ ws : List (List Char),
      (∀ w ∈ ws, w ≠ [] ∧ ∀ c ∈ w, pyIsSpace c = false) →
      windowFree [' ', ' '] (joinWords ws) := by
  intro ws
  induction ws with
  | nil => intro _; exact windowFree_of_short (by decide)
  | cons w ws2 ih =>
    intro h
    cases ws2 with
    | nil => exact windowFree_ss_of_no_space (h w (List.mem_cons_self w [])).2
    | cons w2 rest =>
      show windowFree [' ', ' '] (w ++ ' ' :: joinWords (w2 :: rest))
      refine windowFree_ss_append w _ (h w (List.mem_cons_self w _)).2
        (ih (fun u hu => h u (List.mem_cons_of_mem w hu))) ?_
      intro hd hhd
      have hmem := joinWords_head_not_space w2 rest
        (h w2 (by simp)).1 hd hhd
      exact (h w2 (by simp)).2 hd hmem

lemma joinWords_space_chars :
    ∀ ws : List (List Char),
      (∀ w ∈ ws, ∀ c ∈ w, pyIsSpace c = false) →
      ∀ c ∈ joinWords ws, pyIsSpace c = true → c = ' ' := by
  intro ws
  induction ws with
  | nil => intro _ c hc; simp [joinWords] at hc
  | cons w ws2 ih =>
    intro h c hc hsp
    cases ws2 with
    | nil =>
      have : c ∈ w := by simpa [joinWords] using hc
      exact absurd hsp (by rw [h w (by simp) c this]; simp)
    | cons w2 rest =>
      simp only [joinWords, List.mem_append, List.mem_cons] at hc
      rcases hc with hw | rfl | hrest
      · exact absurd hsp (by rw [h w (by simp) c hw]; simp)
      · rfl
      · exact ih (fun u hu => h u (List.mem_cons_of_mem w hu)) c
          (by simpa [joinWords] using hrest) hsp

/-- C10: when (and only when) the word count exceeds the limit, the
truncated output is a prefix of the kept words rejoined with single
spaces: every run of whitespace of the original content — newlines and
blank lines included — appears as a single `' '` in the output (no
whitespace character other than `' '` occurs, and never two in a row);
within the limit the content is returned byte-for-byte. -/
theorem truncate_response_flattens_whitespace (x : List Char) (k : Nat) :
    (count_words x ≤ k → truncate_response x k = x) ∧
    (k < count_words x →
      (∃ p, truncate_response x k = (joinWords ((pySplit x).take k)).take p) ∧
      (∀ c ∈ truncate_response x k, pyIsSpace c = true → c = ' ') ∧
      windowFree [' ', ' '] (truncate_response x k)) := by
  constructor
  · intro h
    rw [truncate_response]
    exact if_pos h
  · intro h
    have hover : ¬ (pySplit x).length ≤ k := fun hh => absurd hh (by
      rw [count_words] at h; omega)
    have hwf : ∀ w ∈ (pySplit x).take k, w ≠ [] ∧ ∀ c ∈ w, pyIsSpace c = false :=
      fun w hw => pySplit_wf x w (List.take_subset _ _ hw)
    have hu : truncate_response x k = truncateAt (joinWords ((pySplit x).take k)) := by
      rw [truncate_response]
      exact if_neg hover
    have hform : ∃ p, truncate_response x k =
        (joinWords ((pySplit x).take k)).take p := by
      rw [hu]
      unfold truncateAt
      split
      · exact ⟨(joinWords ((pySplit x).take k)).length, (List.take_length _).symm⟩
      · split
        · exact ⟨_, rfl⟩
        · exact ⟨(joinWords ((pySplit x).take k)).length, (List.take_length _).symm⟩
    refine ⟨hform, ?_, ?_⟩
    · obtain ⟨p, hp⟩ := hform
      rw [hp]
      intro c hc hsp
      exact joinWords_space_chars _ (fun w hw => (hwf w hw).2) c
        (List.take_subset _ _ hc) hsp
    · obtain ⟨p, hp⟩ := hform
      rw [hp]
      exact windowFree_take (joinWords_windowFree_ss _ hwf) p

/-- Witness for C10 at a concrete over-limit input containing newlines and
a blank line. -/
theorem truncate_response_flattens_whitespace_witness :
    2 < count_words "al\nbe\n\nga de".data ∧
    ((∃ p, truncate_response "al\nbe\n\nga de".data 2 =
        (joinWords ((pySplit "al\nbe\n\nga de".data).take 2)).take p) ∧
      (∀ c ∈ truncate_response "al\nbe\n\nga de".data 2,
        pyIsSpace c = true → c = ' ') ∧
      windowFree [' ', ' '] (truncate_response "al\nbe\n\nga de".data 2)) :=
  ⟨by decide,
    (truncate_response_flattens_whitespace "al\nbe\n\nga de".data 2).2 (by decide)⟩

/-! ## Verdict extraction — `src/utils.py`,
`extract_winner_from_text` / `extract_confidence_from_text`

Both functions lower-case the judge text and try an ordered list of
regex patterns with `re.search`; the first pattern that matches anywhere
decides.  The regexes use only literals, `\s*` / `\s+` and optional
literal groups, so they are modelled by explicit matchers; `re.search`'s
left-to-right scan is `searchO`.  The optional groups `(?:the\s+)?`,
`(?:i\s+)?`, `(?:as\s+)?` are modelled greedily without backtracking
(`optConsume`): whenever the greedy branch succeeds but the pattern later
fails, the regex engine's empty-branch fallback also fails, because the
following element is a keyword that cannot start with the consumed text
(`the…` is never a prefix of `proponent|opposition|tie` nor of
`winner`/`as…`), so the deterministic model agrees with `re.search`. -/

inductive Winner
  | proponent
  | opposition
  | tie
deriving DecidableEq, Repr

inductive Confidence
  | high
  | medium
  | low
deriving DecidableEq, Repr

/-- Match a literal keyword at the current position, returning the rest. -/
def lit (kw l : List Char) : Option (List Char) :=
  if kw.isPrefixOf l then some (l.drop kw.length) else none

/-- `\s*` (greedy; in every pattern below the next element starts with a
non-whitespace character, so greediness is exact). -/
def wsStar (l : List Char) : List Char := l.dropWhile pyIsSpace

/-- `\s+`. -/
def ws1 (l : List Char) : Option (List Char) :=
  match l with
  | [] => none
  | c :: rest => if pyIsSpace c then some ((c :: rest).dropWhile pyIsSpace) else none

/-- `(?:kw\s+)?`. -/
def optConsume (kw l : List Char) : List Char :=
  match lit kw l with
  | some r =>
    match ws1 r with
    | some r' => r'
    | none => l
  | none => l

/-- `(proponent|opposition|tie)` (alternatives tried left to right; none
is a prefix of another). -/
def winTok (l : List Char) : Option (Winner × List Char) :=
  match lit "proponent".data l with
  | some r => some (.proponent, r)
  | none =>
    match lit "opposition".data l with
    | some r => some (.opposition, r)
    | none =>
      match lit "tie".data l with
      | some r => some (.tie, r)
      | none => none

/-- `(high|medium|low)`. -/
def confTok (l : List Char) : Option (Confidence × List Char) :=
  match lit "high".data l with
  | some r => some (.high, r)
  | none =>
    match lit "medium".data l with
    | some r => some (.medium, r)
    | none =>
      match lit "low".data l with
      | some r => some (.low, r)
      | none => none

/-- `\*\*winner:\s*(proponent|opposition|tie)\*\*` at one position. -/
def winPat1 (l : List Char) : Option Winner :=
  match lit "**winner:".data l with
  | none => none
  | some r =>
    match winTok (wsStar r) with
    | none => none
    | some (w, r') =>
      match lit "**".data r' with
      | none => none
      | some _ => some w

/-- `winner:\s*(proponent|opposition|tie)` at one position. -/
def winPat2 (l : List Char) : Option Winner :=
  match lit "winner:".data l with
  | none => none
  | some r => (winTok (wsStar r)).map (·.1)

/-- `the\s+winner\s+is\s+(?:the\s+)?(proponent|opposition|tie)` at one
position. -/
def winPat3 (l : List Char) : Option Winner :=
  match lit "the".data l with
  | none => none
  | some r1 =>
    match ws1 r1 with
    | none => none
    | some r2 =>
      match lit "winner".data r2 with
      | none => none
      | some r3 =>
        match ws1 r3 with
        | none => none
        | some r4 =>
          match lit "is".data r4 with
          | none => none
          | some r5 =>
            match ws1 r5 with
            | none => none
            | some r6 => (winTok (optConsume "the".data r6)).map (·.1)

/-- `(?:i\s+)?declare\s+(?:the\s+)?(proponent|opposition|tie)\s+(?:as\s+)?(?:the\s+)?winner`
at one position. -/
def winPat4 (l : List Char) : Option Winner :=
  match lit "declare".data (optConsume "i".data l) with
  | none => none
  | some r1 =>
    match ws1 r1 with
    | none => none
    | some r2 =>
      match winTok (optConsume "the".data r2) with
      | none => none
      | some (w, r3) =>
        match ws1 r3 with
        | none => none
        | some r4 =>
          match lit "winner".data (optConsume "the".data (optConsume "as".data r4)) with
          | none => none
          | some _ => some w

/-- `\*\*confidence:\s*(high|medium|low)\*\*` at one position. -/
def confPat1 (l : List Char) : Option Confidence :=
  match lit "**confidence:".data l with
  | none => none
  | some r =>
    match confTok (wsStar r) with
    | none => none
    | some (c, r') =>
      match lit "**".data r' with
      | none => none
      | some _ => some c

/-- `confidence:\s*(high|medium|low)` at one position. -/
def confPat2 (l : List Char) : Option Confidence :=
  match lit "confidence:".data l with
  | none => none
  | some r => (confTok (wsStar r)).map (·.1)

/-- `re.search`: try the position matcher at every start position, left to
right. -/
def searchO {α : Type} (m : List Char → Option α) : List Char → Option α
  | [] => m []
  | c :: rest =>
    match m (c :: rest) with
    | some a => some a
    | none => searchO m rest

/-- `str.lower()` (ASCII case mapping — the patterns are pure ASCII). -/
def toLowerList (l : List Char) : List Char := l.map Char.toLower

def extract_winner_from_text (content : List Char) : Option Winner :=
  match searchO winPat1 (toLowerList content) with
  | some w => some w
  | none =>
    match searchO winPat2 (toLowerList content) with
    | some w => some w
    | none =>
      match searchO winPat3 (toLowerList content) with
      | some w => some w
      | none => searchO winPat4 (toLowerList content)

/-- Note: the source returns the *string* `"medium"` when no pattern
matches (despite its `Optional[str]` annotation), so the Lean model
returns `Confidence`, not `Option Confidence`. -/
def extract_confidence_from_text (content : List Char) : Confidence :=
  match searchO confPat1 (toLowerList content) with
  | some c => c
  | none =>
    match searchO confPat2 (toLowerList content) with
    | some c => c
    | none => .medium

/-! ### A matcher can only succeed where its keyword occurs -/

lemma lit_some {kw l r : List Char} (h : lit kw l = some r) :
    kw <+: l ∧ r <:+ l := by
  unfold lit at h
  split at h
  · injection h with h
    rename_i hpre
    exact ⟨ List.isPrefixOf_iff_prefix.mp hpre, h ▸ List.drop_suffix _ _⟩
  · cases h

lemma ws1_some {l r : List Char} (h : ws1 l = some r) : r <:+ l := by
  unfold ws1 at h
  split at h
  · cases h
  · split at h
    · injection h with h
      exact h ▸ List.dropWhile_suffix _
    · cases h

lemma wsStar_suffix (l : List Char) : wsStar l <:+ l := List.dropWhile_suffix _

lemma optConsume_suffix (kw l : List Char) : optConsume kw l <:+ l := by
  unfold optConsume
  split
  · rename_i r hlit
    split
    · rename_i r' hws
      exact (ws1_some hws).trans (lit_some hlit).2
    · exact List.suffix_refl l
  · exact List.suffix_refl l

lemma winTok_some {l : List Char} {w : Winner} {r : List Char}
    (h : winTok l = some (w, r)) : r <:+ l := by
  unfold winTok at h
  split at h
  · rename_i hlit
    injection h with h
    exact (Prod.mk.injEq .. ▸ h).2 ▸ (lit_some hlit).2
  · split at h
    · rename_i hlit
      injection h with h
      exact (Prod.mk.injEq .. ▸ h).2 ▸ (lit_some hlit).2
    · split at h
      · rename_i hlit
        injection h with h
        exact (Prod.mk.injEq .. ▸ h).2 ▸ (lit_some hlit).2
      · cases h

/-- The word searched for by every winner pattern. -/
def winnerKw : List Char := "winner".data

/-- The word searched for by both confidence patterns. -/
def confidenceKw : List Char := "confidence".data

lemma winPat1_has_kw {l : List Char} {w : Winner} (h : winPat1 l = some w) :
    winnerKw <:+: l := by
  unfold winPat1 at h
  split at h
  · cases h
  · rename_i r hlit
    exact (show winnerKw <:+: "**winner:".data by decide).trans
      (lit_some hlit).1.isInfix

lemma winPat2_has_kw {l : List Char} {w : Winner} (h : winPat2 l = some w) :
    winnerKw <:+: l := by
  unfold winPat2 at h
  split at h
  · cases h
  · rename_i r hlit
    exact (show winnerKw <:+: "winner:".data by decide).trans
      (lit_some hlit).1.isInfix

lemma winPat3_has_kw {l : List Char} {w : Winner} (h : winPat3 l = some w) :
    winnerKw <:+: l := by
  unfold winPat3 at h
  split at h
  · cases h
  rename_i r1 hlit1
  split at h
  · cases h
  rename_i r2 hws1
  split at h
  · cases h
  rename_i r3 hlit2
  have : winnerKw <:+: r2 := (lit_some hlit2).1.isInfix
  exact (this.trans (ws1_some hws1).isInfix).trans (lit_some hlit1).2.isInfix

lemma winPat4_has_kw {l : List Char} {w : Winner} (h : winPat4 l = some w) :
    winnerKw <:+: l := by
  unfold winPat4 at h
  split at h
  · cases h
  rename_i r1 hlit1
  split at h
  · cases h
  rename_i r2 hws2
  split at h
  · cases h
  rename_i p w' r3 htok
  split at h
  · cases h
  rename_i r4 hws4
  split at h
  · cases h
  rename_i r5 hlit5
  have h1 : winnerKw <+: optConsume "the".data (optConsume "as".data r4) :=
    (lit_some hlit5).1
  have h2 : optConsume "the".data (optConsume "as".data r4) <:+ r4 :=
    (optConsume_suffix _ _).trans (optConsume_suffix _ _)
  have h3 : r4 <:+ r3 := ws1_some hws4
  have h4 : r3 <:+ optConsume "the".data r2 := winTok_some htok
  have h5 : optConsume "the".data r2 <:+ r2 := optConsume_suffix _ _
  have h6 : r2 <:+ r1 := ws1_some hws2
  have h7 : r1 <:+ optConsume "i".data l := (lit_some hlit1).2
  have h8 : optConsume "i".data l <:+ l := optConsume_suffix _ _
  exact h1.isInfix.trans
    (((((((h2.trans h3).trans h4).trans h5).trans h6).trans h7).trans h8).isInfix)

lemma confTok_some {l : List Char} {c : Confidence} {r : List Char}
    (h : confTok l = some (c, r)) : r <:+ l := by
  unfold confTok at h
  split at h
  · rename_i hlit
    injection h with h
    exact (Prod.mk.injEq .. ▸ h).2 ▸ (lit_some hlit).2
  · split at h
    · rename_i hlit
      injection h with h
      exact (Prod.mk.injEq .. ▸ h).2 ▸ (lit_some hlit).2
    · split at h
      · rename_i hlit
        injection h with h
        exact (Prod.mk.injEq .. ▸ h).2 ▸ (lit_some hlit).2
      · cases h

lemma confPat1_has_kw {l : List Char} {c : Confidence} (h : confPat1 l = some c) :
    confidenceKw <:+: l := by
  unfold confPat1 at h
  split at h
  · cases h
  · rename_i r hlit
    exact (show confidenceKw <:+: "**confidence:".data by decide).trans
      (lit_some hlit).1.isInfix

lemma confPat2_has_kw {l : List Char} {c : Confidence} (h : confPat2 l = some c) :
    confidenceKw <:+: l := by
  unfold confPat2 at h
  split at h
  · cases h
  · rename_i r hlit
    exact (show confidenceKw <:+: "confidence:".data by decide).trans
      (lit_some hlit).1.isInfix

lemma searchO_some {α : Type} {m : List Char → Option α} :
    ∀ {l : List Char} {a : α}, searchO m l = some a →
      ∃ l', l' <:+ l ∧ m l' = some a := by
  intro l
  induction l with
  | nil => intro a h; exact ⟨[], List.suffix_refl _, h⟩
  | cons c rest ih =>
    intro a h
    unfold searchO at h
    split at h
    · rename_i hm
      exact ⟨c :: rest, List.suffix_refl _, by rw [hm, h]⟩
    · obtain ⟨l', hl', hm⟩ := ih h
      exact ⟨l', hl'.trans (List.suffix_cons c rest), hm⟩

lemma searchO_eq_none_of_infix_free {α : Type} {m : List Char → Option α}
    {kw l : List Char} (hpat : ∀ l' a, m l' = some a → kw <:+: l')
    (h : ¬ kw <:+: l) : searchO m l = none := by
  cases hs : searchO m l with
  | none => rfl
  | some a =>
    obtain ⟨l', hl', hm⟩ := searchO_some hs
    exact absurd ((hpat l' a hm).trans hl'.isInfix) h

/-- C5: judge text containing no winner marker and no confidence marker
extracts to the defaults `tie` / `medium` (no error path exists — the
functions are total); and winner extraction obeys the source's pattern
priority: the first of the four ordered patterns to match anywhere in the
lower-cased text determines the winner. -/
theorem verdict_extraction_contract :
    (∀ content : List Char, ¬ winnerKw <:+: toLowerList content →
      extract_winner_from_text content = none ∧
      (extract_winner_from_text content).getD Winner.tie = Winner.tie) ∧
    (∀ content : List Char, ¬ confidenceKw <:+: toLowerList content →
      extract_confidence_from_text content = Confidence.medium) ∧
    (∀ (content : List Char) (w : Winner),
      (searchO winPat1 (toLowerList content) = some w →
        extract_winner_from_text content = some w) ∧
      (searchO winPat1 (toLowerList content) = none →
        searchO winPat2 (toLowerList content) = some w →
        extract_winner_from_text content = some w) ∧
      (searchO winPat1 (toLowerList content) = none →
        searchO winPat2 (toLowerList content) = none →
        searchO winPat3 (toLowerList content) = some w →
        extract_winner_from_text content = some w) ∧
      (searchO winPat1 (toLowerList content) = none →
        searchO winPat2 (toLowerList content) = none →
        searchO winPat3 (toLowerList content) = none →
        searchO winPat4 (toLowerList content) = some w →
        extract_winner_from_text content = some w)) := by
  refine ⟨?_, ?_, ?_⟩
  · intro content h
    have h1 := searchO_eq_none_of_infix_free (fun _ _ => winPat1_has_kw) h
    have h2 := searchO_eq_none_of_infix_free (fun _ _ => winPat2_has_kw) h
    have h3 := searchO_eq_none_of_infix_free (fun _ _ => winPat3_has_kw) h
    have h4 := searchO_eq_none_of_infix_free (fun _ _ => winPat4_has_kw) h
    have : extract_winner_from_text content = none := by
      rw [extract_winner_from_text]
      simp only [h1, h2, h3, h4]
    exact ⟨this, by rw [this]; rfl⟩
  · intro content h
    have h1 := searchO_eq_none_of_infix_free (fun _ _ => confPat1_has_kw) h
    have h2 := searchO_eq_none_of_infix_free (fun _ _ => confPat2_has_kw) h
    rw [extract_confidence_from_text]
    simp only [h1, h2]
  · intro content w
    refine ⟨?_, ?_, ?_, ?_⟩
    · intro h1
      rw [extract_winner_from_text]
      simp only [h1]
    · intro h1 h2
      rw [extract_winner_from_text]
      simp only [h1, h2]
    · intro h1 h2 h3
      rw [extract_winner_from_text]
      simp only [h1, h2, h3]
    · intro h1 h2 h3 h4
      rw [extract_winner_from_text]
      simp only [h1, h2, h3, h4]

/-- Witness for C5: a marker-free judge text yields the defaults, and a
text matched by the first pattern yields its winner. -/
theorem verdict_extraction_contract_witness :
    (extract_winner_from_text "The debate was close.".data = none ∧
      (extract_winner_from_text "The debate was close.".data).getD Winner.tie =
        Winner.tie) ∧
    extract_confidence_from_text "The debate was close.".data =
      Confidence.medium ∧
    extract_winner_from_text "**Winner: Proponent**".data =
      some Winner.proponent :=
  ⟨verdict_extraction_contract.1 "The debate was close.".data (by decide),
    verdict_extraction_contract.2.1 "The debate was close.".data (by decide),
    (verdict_extraction_contract.2.2 "**Winner: Proponent**".data
      Winner.proponent).1 (by decide)⟩

/-! ## Data model — `src/models.py`, and the orchestration graph —
`src/agents.py` / `src/graph.py`

The LLM backend is abstracted as an oracle `gen : GraphState → Role →
List Char` giving the raw text of each successful generation (the retry
wrapper either produces such a text or aborts the whole run, see C3).
The wall-clock `timestamp` field of `DebateTurn` carries no information
used anywhere and is not modelled; `word_count` is set exactly as
`model_post_init` does.  Of `DebateConfig` only the two fields that
influence the core's data are modelled (the credential/model/temperature
fields configure the external LLM client, and the retry fields are
covered by the retry model of C3). -/

inductive Role
  | proponent
  | opposition
  | judge
deriving DecidableEq, Repr

inductive Phase
  | opening
  | rebuttal
  | closing
  | verdict
  | complete
deriving DecidableEq, Repr

structure DebateTurn where
  role : Role
  phase : Phase
  round_number : Nat
  content : List Char
  word_count : Nat
deriving DecidableEq, Repr

/-- `DebateTurn(...)` constructor including `model_post_init`'s derived
word count. -/
def mkTurn (role : Role) (phase : Phase) (round_number : Nat)
    (content : List Char) : DebateTurn :=
  ⟨role, phase, round_number, content, count_words content⟩

def winnerStr : Winner → List Char
  | .proponent => "proponent".data
  | .opposition => "opposition".data
  | .tie => "tie".data

def confStr : Confidence → List Char
  | .high => "high".data
  | .medium => "medium".data
  | .low => "low".data

/-- The verdict dict built by `judge_node` (its score/argument list
entries are constant empty collections and carry no information). -/
structure JudgeVerdict where
  winner : Winner
  confidence : Confidence
  reasoning : List Char
  summary : List Char
deriving DecidableEq, Repr

structure DebateConfig where
  max_rounds : Nat
  max_response_length : Nat
deriving DecidableEq, Repr

/-- `GraphState` of `src/graph.py` (the `history` field is additive-only:
every node returns `{"history": [turn]}` merged by the `operator.add`
reducer, i.e. an append). -/
structure GraphState where
  topic : List Char
  max_rounds : Nat
  current_phase : Phase
  current_round : Nat
  history : List DebateTurn
  verdict : Option JudgeVerdict
  errors : List (List Char)
deriving DecidableEq, Repr

/-- The nodes of the compiled LangGraph. -/
inductive Node
  | proponent
  | opposition
  | judge
  | start_rebuttal
  | next_round
  | start_closing
deriving DecidableEq, Repr

/-- `proponent_node` (`src/agents.py`): clean, truncate, record the turn;
the structural-header validation only logs and is not modelled. -/
def proponent_node (cfg : DebateConfig) (gen : GraphState → Role → List Char)
    (s : GraphState) : GraphState :=
  { s with history := s.history ++
      [mkTurn .proponent s.current_phase s.current_round
        (truncate_response (clean_response (gen s .proponent))
          cfg.max_response_length)] }

/-- `opposition_node` (`src/agents.py`). -/
def opposition_node (cfg : DebateConfig) (gen : GraphState → Role → List Char)
    (s : GraphState) : GraphState :=
  { s with history := s.history ++
      [mkTurn .opposition s.current_phase s.current_round
        (truncate_response (clean_response (gen s .opposition))
          cfg.max_response_length)] }

/-- `judge_node` (`src/agents.py`): cleans but does not truncate, appends
the judge turn and sets verdict and `current_phase = "complete"` in one
state update. -/
def judge_node (_cfg : DebateConfig) (gen : GraphState → Role → List Char)
    (s : GraphState) : GraphState :=
  { s with
    history := s.history ++
      [mkTurn .judge .verdict 0 (clean_response (gen s .judge))],
    current_phase := .complete,
    verdict := some
      { winner := (extract_winner_from_text (clean_response (gen s .judge))).getD .tie,
        confidence := extract_confidence_from_text (clean_response (gen s .judge)),
        reasoning := clean_response (gen s .judge),
        summary := "The ".data ++
          winnerStr ((extract_winner_from_text (clean_response (gen s .judge))).getD .tie) ++
          " wins with ".data ++
          confStr (extract_confidence_from_text (clean_response (gen s .judge))) ++
          " confidence.".data } }

def start_rebuttal_node (s : GraphState) : GraphState :=
  { s with current_phase := .rebuttal, current_round := 1 }

def next_round_node (s : GraphState) : GraphState :=
  { s with current_round := s.current_round + 1 }

def start_closing_node (s : GraphState) : GraphState :=
  { s with current_phase := .closing, current_round := 0 }

def applyNode (cfg : DebateConfig) (gen : GraphState → Role → List Char) :
    Node → GraphState → GraphState
  | .proponent => proponent_node cfg gen
  | .opposition => opposition_node cfg gen
  | .judge => judge_node cfg gen
  | .start_rebuttal => start_rebuttal_node
  | .next_round => next_round_node
  | .start_closing => start_closing_node

/-- `route_after_opposition` (`src/graph.py`): conditional edge evaluated
on the state *after* the opposition node ran; `none` is LangGraph's `END`
(the unreachable fallback). -/
def route_after_opposition (s : GraphState) : Option Node :=
  match s.current_phase with
  | .opening => some .start_rebuttal
  | .rebuttal =>
    if s.max_rounds ≤ s.current_round then some .start_closing
    else some .next_round
  | .closing => some .judge
  | _ => none

/-- All edges of the compiled graph (`create_debate_graph`): fixed edges
`proponent → opposition`, phase-transition nodes `→ proponent`,
`judge → END`, and the conditional edge after `opposition`. -/
def routeAfter : Node → GraphState → Option Node
  | .proponent, _ => some .opposition
  | .opposition, s => route_after_opposition s
  | .judge, _ => none
  | .start_rebuttal, _ => some .proponent
  | .next_round, _ => some .proponent
  | .start_closing, _ => some .proponent

/-- Run the graph: apply the current node, follow the edge, stop at END.
`fuel` bounds the number of node executions (the result is `none` only
when fuel runs out, and any sufficient fuel yields the same result). -/
def runAux (cfg : DebateConfig) (gen : GraphState → Role → List Char) :
    Nat → Node → GraphState → Option GraphState
  | 0, _, _ => none
  | fuel + 1, n, s =>
    match routeAfter n (applyNode cfg gen n s) with
    | none => some (applyNode cfg gen n s)
    | some n' => runAux cfg gen fuel n' (applyNode cfg gen n s)

/-- Every state the run passes through (before/after each node). -/
def traceAux (cfg : DebateConfig) (gen : GraphState → Role → List Char) :
    Nat → Node → GraphState → List GraphState
  | 0, _, s => [s]
  | fuel + 1, n, s =>
    s :: (match routeAfter n (applyNode cfg gen n s) with
      | none => [applyNode cfg gen n s]
      | some n' => traceAux cfg gen fuel n' (applyNode cfg gen n s))

/-- Every executed step `(state before, node, state after)`. -/
def stepsAux (cfg : DebateConfig) (gen : GraphState → Role → List Char) :
    Nat → Node → GraphState → List (GraphState × Node × GraphState)
  | 0, _, _ => []
  | fuel + 1, n, s =>
    (s, n, applyNode cfg gen n s) ::
      (match routeAfter n (applyNode cfg gen n s) with
       | none => []
       | some n' => stepsAux cfg gen fuel n' (applyNode cfg gen n s))

/-- The initial state of `run_debate` / `stream_debate`. -/
def initState (topic : List Char) (max_rounds : Nat) : GraphState :=
  ⟨topic, max_rounds, .opening, 0, [], none, []⟩

/-- `run_debate` (`src/graph.py`): the entry point is `proponent`; a
complete run executes `3 * max_rounds + 6` nodes. -/
def run_debate (cfg : DebateConfig) (gen : GraphState → Role → List Char)
    (topic : List Char) : Option GraphState :=
  runAux cfg gen (3 * cfg.max_rounds + 6) .proponent
    (initState topic cfg.max_rounds)

/-! ### The §4.1 transition table as transcript projections -/

/-- Projection of a turn onto (phase, round, role). -/
def projT (t : DebateTurn) : Phase × Nat × Role :=
  (t.phase, t.round_number, t.role)

def openingProj : List (Phase × Nat × Role) :=
  [(.opening, 0, .proponent), (.opening, 0, .opposition)]

def rebutProj (m : Nat) : List (Phase × Nat × Role) :=
  (List.range m).flatMap fun i =>
    [(.rebuttal, i + 1, .proponent), (.rebuttal, i + 1, .opposition)]

def closingProj : List (Phase × Nat × Role) :=
  [(.closing, 0, .proponent), (.closing, 0, .opposition)]

def judgeProj : Phase × Nat × Role := (.verdict, 0, .judge)

/-- The (phase, round, role) sequence of a completed debate with `N`
rebuttal rounds, per the spec's §4.1 table. -/
def expectedProj (N : Nat) : List (Phase × Nat × Role) :=
  openingProj ++ rebutProj N ++ closingProj ++ [judgeProj]

/-- The round numbers `1,1,2,2,…,m,m`. -/
def dupRange (m : Nat) : List Nat :=
  (List.range m).flatMap fun i => [i + 1, i + 1]

/-- Round numbers of the rebuttal-phase entries of a projected
transcript. -/
def rebRoundsP (L : List (Phase × Nat × Role)) : List Nat :=
  (L.filter fun x => decide (x.1 = Phase.rebuttal)).map fun x => x.2.1

lemma rebutProj_succ (m : Nat) :
    rebutProj (m + 1) = rebutProj m ++
      [(.rebuttal, m + 1, .proponent), (.rebuttal, m + 1, .opposition)] := by
  unfold rebutProj
  rw [List.range_succ, List.flatMap_append]
  simp

lemma dupRange_succ (m : Nat) :
    dupRange (m + 1) = dupRange m ++ [m + 1, m + 1] := by
  unfold dupRange
  rw [List.range_succ, List.flatMap_append]
  simp

/-- The control-point invariant: what holds of the state whenever node `n`
is about to execute. -/
def Inv (N : Nat) : Node → GraphState → Prop := fun n s =>
  s.max_rounds = N ∧ 1 ≤ N ∧ s.verdict = none ∧
  (match n with
  | .proponent =>
    (s.current_phase = .opening ∧ s.current_round = 0 ∧
      s.history.map projT = []) ∨
    (s.current_phase = .rebuttal ∧ 1 ≤ s.current_round ∧ s.current_round ≤ N ∧
      s.history.map projT = openingProj ++ rebutProj (s.current_round - 1)) ∨
    (s.current_phase = .closing ∧ s.current_round = 0 ∧
      s.history.map projT = openingProj ++ rebutProj N)
  | .opposition =>
    (s.current_phase = .opening ∧ s.current_round = 0 ∧
      s.history.map projT = [(.opening, 0, .proponent)]) ∨
    (s.current_phase = .rebuttal ∧ 1 ≤ s.current_round ∧ s.current_round ≤ N ∧
      s.history.map projT = openingProj ++ rebutProj (s.current_round - 1) ++
        [(.rebuttal, s.current_round, .proponent)]) ∨
    (s.current_phase = .closing ∧ s.current_round = 0 ∧
      s.history.map projT = openingProj ++ rebutProj N ++
        [(.closing, 0, .proponent)])
  | .start_rebuttal =>
    s.current_phase = .opening ∧ s.current_round = 0 ∧
      s.history.map projT = openingProj
  | .next_round =>
    s.current_phase = .rebuttal ∧ 1 ≤ s.current_round ∧ s.current_round < N ∧
      s.history.map projT = openingProj ++ rebutProj s.current_round
  | .start_closing =>
    s.current_phase = .rebuttal ∧ s.current_round = N ∧
      s.history.map projT = openingProj ++ rebutProj N
  | .judge =>
    s.current_phase = .closing ∧ s.current_round = 0 ∧
      s.history.map projT = openingProj ++ rebutProj N ++ closingProj)

/-- What holds of the final state delivered at `END`. -/
def FinalOK (N : Nat) (s : GraphState) : Prop :=
  s.max_rounds = N ∧ s.current_phase = .complete ∧ s.verdict.isSome ∧
  s.history.map projT = expectedProj N

lemma inv_step (cfg : DebateConfig) (gen : GraphState → Role → List Char)
    (N : Nat) (n : Node) (s : GraphState) (h : Inv N n s) :
    (∀ n', routeAfter n (applyNode cfg gen n s) = some n' →
      Inv N n' (applyNode cfg gen n s)) ∧
    (routeAfter n (applyNode cfg gen n s) = none →
      FinalOK N (applyNode cfg gen n s)) := by
  obtain ⟨hmax, hN, hv, hn⟩ := h
  cases n with
  | proponent =>
    refine ⟨?_, ?_⟩
    · intro n' hn'
      injection hn' with hn'
      subst hn'
      rcases hn with ⟨h1, h2, h3⟩ | ⟨h1, h2, h3, h4⟩ | ⟨h1, h2, h3⟩
      · exact ⟨hmax, hN, hv, Or.inl ⟨h1, h2, by
          simp [applyNode, proponent_node, projT, mkTurn, h1, h2, h3]⟩⟩
      · exact ⟨hmax, hN, hv, Or.inr (Or.inl ⟨h1, h2, h3, by
          simp [applyNode, proponent_node, projT, mkTurn, h1, h4]⟩)⟩
      · exact ⟨hmax, hN, hv, Or.inr (Or.inr ⟨h1, h2, by
          simp [applyNode, proponent_node, projT, mkTurn, h1, h2, h3]⟩)⟩
    · intro hnone
      cases hnone
  | opposition =>
    rcases hn with ⟨h1, h2, h3⟩ | ⟨h1, h2, h3, h4⟩ | ⟨h1, h2, h3⟩
    · refine ⟨?_, ?_⟩
      · intro n' hn'
        have hroute : routeAfter Node.opposition (applyNode cfg gen .opposition s) =
            some .start_rebuttal := by
          simp [routeAfter, route_after_opposition, applyNode, opposition_node, h1]
        rw [hroute] at hn'
        injection hn' with hn'
        subst hn'
        exact ⟨hmax, hN, hv, h1, h2, by
          simp [applyNode, opposition_node, projT, mkTurn, h1, h2, h3, openingProj]⟩
      · intro hnone
        rw [show routeAfter Node.opposition (applyNode cfg gen .opposition s) =
            some .start_rebuttal by
          simp [routeAfter, route_after_opposition, applyNode, opposition_node, h1]]
          at hnone
        cases hnone
    · obtain ⟨r', hr'⟩ : ∃ r', s.current_round = r' + 1 :=
        ⟨s.current_round - 1, by omega⟩
      have hproj : (applyNode cfg gen .opposition s).history.map projT =
          openingProj ++ rebutProj s.current_round := by
        show (s.history ++ [mkTurn .opposition s.current_phase s.current_round
          (truncate_response (clean_response (gen s .opposition))
            cfg.max_response_length)]).map projT = _
        rw [List.map_append, h4]
        simp only [List.map_cons, List.map_nil]
        have hpt : projT (mkTurn .opposition s.current_phase s.current_round
            (truncate_response (clean_response (gen s .opposition))
              cfg.max_response_length)) =
            (Phase.rebuttal, s.current_round, Role.opposition) := by
          simp [projT, mkTurn, h1]
        rw [hpt, hr', Nat.add_sub_cancel, rebutProj_succ]
        simp
      by_cases hlast : N ≤ s.current_round
      · have hr : s.current_round = N := le_antisymm h3 hlast
        have hroute : routeAfter Node.opposition (applyNode cfg gen .opposition s) =
            some .start_closing := by
          simp [routeAfter, route_after_opposition, applyNode, opposition_node,
            h1, hmax, hlast]
        refine ⟨?_, ?_⟩
        · intro n' hn'
          rw [hroute] at hn'
          injection hn' with hn'
          subst hn'
          exact ⟨hmax, hN, hv, h1, hr, by rw [hproj, hr]⟩
        · intro hnone
          rw [hroute] at hnone
          cases hnone
      · have hroute : routeAfter Node.opposition (applyNode cfg gen .opposition s) =
            some .next_round := by
          simp [routeAfter, route_after_opposition, applyNode, opposition_node,
            h1, hmax, hlast]
        refine ⟨?_, ?_⟩
        · intro n' hn'
          rw [hroute] at hn'
          injection hn' with hn'
          subst hn'
          exact ⟨hmax, hN, hv, h1, h2, (show s.current_round < N by omega), hproj⟩
        · intro hnone
          rw [hroute] at hnone
          cases hnone
    · have hroute : routeAfter Node.opposition (applyNode cfg gen .opposition s) =
          some .judge := by
        simp [routeAfter, route_after_opposition, applyNode, opposition_node, h1]
      refine ⟨?_, ?_⟩
      · intro n' hn'
        rw [hroute] at hn'
        injection hn' with hn'
        subst hn'
        refine ⟨hmax, hN, hv, h1, h2, ?_⟩
        show (s.history ++ [mkTurn .opposition s.current_phase s.current_round
          (truncate_response (clean_response (gen s .opposition))
            cfg.max_response_length)]).map projT = _
        rw [List.map_append, h3]
        simp [projT, mkTurn, h1, h2, closingProj]
      · intro hnone
        rw [hroute] at hnone
        cases hnone
  | judge =>
    obtain ⟨h1, h2, h3⟩ := hn
    refine ⟨?_, ?_⟩
    · intro n' hn'
      cases hn'
    · intro _
      refine ⟨hmax, rfl, by simp [applyNode, judge_node], ?_⟩
      simp only [applyNode, judge_node, List.map_append, h3]
      simp [projT, mkTurn, expectedProj, judgeProj]
  | start_rebuttal =>
    obtain ⟨h1, h2, h3⟩ := hn
    refine ⟨?_, ?_⟩
    · intro n' hn'
      injection hn' with hn'
      subst hn'
      refine ⟨hmax, hN, hv, Or.inr (Or.inl ⟨rfl, le_refl 1, hN, ?_⟩)⟩
      simp [applyNode, start_rebuttal_node, h3, rebutProj]
    · intro hnone
      cases hnone
  | next_round =>
    obtain ⟨h1, h2, h3, h4⟩ := hn
    refine ⟨?_, ?_⟩
    · intro n' hn'
      injection hn' with hn'
      subst hn'
      refine ⟨hmax, hN, hv, Or.inr (Or.inl ⟨h1,
        (show 1 ≤ s.current_round + 1 by omega),
        (show s.current_round + 1 ≤ N by omega), ?_⟩)⟩
      show s.history.map projT =
        openingProj ++ rebutProj (s.current_round + 1 - 1)
      rw [Nat.add_sub_cancel]
      exact h4
    · intro hnone
      cases hnone
  | start_closing =>
    obtain ⟨h1, h2, h3⟩ := hn
    refine ⟨?_, ?_⟩
    · intro n' hn'
      injection hn' with hn'
      subst hn'
      exact ⟨hmax, hN, hv, Or.inr (Or.inr ⟨rfl, rfl, by
        simp [applyNode, start_closing_node, h3]⟩)⟩
    · intro hnone
      cases hnone

/-- A state is reachable when it satisfies a control-point invariant or is
the final state. -/
def ReachP (N : Nat) (s : GraphState) : Prop :=
  (∃ n, Inv N n s) ∨ FinalOK N s

lemma traceAux_reach (cfg : DebateConfig) (gen : GraphState → Role → List Char)
    (N : Nat) : ∀ (fuel : Nat) (n : Node) (s : GraphState), Inv N n s →
      ∀ x ∈ traceAux cfg gen fuel n s, ReachP N x := by
  intro fuel
  induction fuel with
  | zero =>
    intro n s h x hx
    simp only [traceAux, List.mem_singleton] at hx
    subst hx
    exact Or.inl ⟨n, h⟩
  | succ fuel ih =>
    intro n s h x hx
    rw [traceAux] at hx
    rcases List.mem_cons.mp hx with rfl | hx'
    · exact Or.inl ⟨n, h⟩
    · cases hr : routeAfter n (applyNode cfg gen n s) with
      | none =>
        simp only [hr, List.mem_singleton] at hx'
        subst hx'
        exact Or.inr ((inv_step cfg gen N n s h).2 hr)
      | some n' =>
        simp only [hr] at hx'
        exact ih n' _ ((inv_step cfg gen N n s h).1 n' hr) x hx'

/-- `current_round` evolution in one step: it never decreases except on
the transition into closing (where it is reset to 0), and the transition
into rebuttal sets it to 1. -/
def stepProp (tr : GraphState × Node × GraphState) : Prop :=
  (tr.1.current_round ≤ tr.2.2.current_round ∨
    (tr.2.1 = Node.start_closing ∧ tr.2.2.current_round = 0 ∧
      tr.2.2.current_phase = .closing)) ∧
  (tr.2.1 = Node.start_rebuttal →
    tr.2.2.current_round = 1 ∧ tr.2.2.current_phase = .rebuttal)

lemma stepProp_of_inv (cfg : DebateConfig) (gen : GraphState → Role → List Char)
    (N : Nat) (n : Node) (s : GraphState) (h : Inv N n s) :
    stepProp (s, n, applyNode cfg gen n s) := by
  obtain ⟨hmax, hN, hv, hn⟩ := h
  cases n with
  | proponent => exact ⟨Or.inl le_rfl, fun hc => by cases hc⟩
  | opposition => exact ⟨Or.inl le_rfl, fun hc => by cases hc⟩
  | judge => exact ⟨Or.inl le_rfl, fun hc => by cases hc⟩
  | start_rebuttal =>
    obtain ⟨h1, h2, h3⟩ := hn
    exact ⟨Or.inl (by show s.current_round ≤ 1; omega),
      fun _ => ⟨rfl, rfl⟩⟩
  | next_round =>
    exact ⟨Or.inl (by show s.current_round ≤ s.current_round + 1; omega),
      fun hc => by cases hc⟩
  | start_closing =>
    exact ⟨Or.inr ⟨rfl, rfl, rfl⟩, fun hc => by cases hc⟩

lemma stepsAux_prop (cfg : DebateConfig) (gen : GraphState → Role → List Char)
    (N : Nat) : ∀ (fuel : Nat) (n : Node) (s : GraphState), Inv N n s →
      ∀ tr ∈ stepsAux cfg gen fuel n s, stepProp tr := by
  intro fuel
  induction fuel with
  | zero => intro n s _ tr htr; simp [stepsAux] at htr
  | succ fuel ih =>
    intro n s h tr htr
    rw [stepsAux] at htr
    rcases List.mem_cons.mp htr with rfl | htr'
    · exact stepProp_of_inv cfg gen N n s h
    · cases hr : routeAfter n (applyNode cfg gen n s) with
      | none => simp only [hr] at htr'; simp at htr'
      | some n' =>
        simp only [hr] at htr'
        exact ih n' _ ((inv_step cfg gen N n s h).1 n' hr) tr htr'

/-- Partial correctness of the run: any run started at the entry point
that reaches END delivers a `FinalOK` state. -/
lemma runAux_final (cfg : DebateConfig) (gen : GraphState → Role → List Char)
    (N : Nat) : ∀ (fuel : Nat) (n : Node) (s : GraphState), Inv N n s →
      ∀ t, runAux cfg gen fuel n s = some t → FinalOK N t := by
  intro fuel
  induction fuel with
  | zero => intro n s _ t ht; cases ht
  | succ fuel ih =>
    intro n s h t ht
    rw [runAux] at ht
    cases hr : routeAfter n (applyNode cfg gen n s) with
    | none =>
      simp only [hr] at ht
      injection ht with ht
      exact ht ▸ (inv_step cfg gen N n s h).2 hr
    | some n' =>
      simp only [hr] at ht
      exact ih n' _ ((inv_step cfg gen N n s h).1 n' hr) t ht

lemma inv_init (topic : List Char) (N : Nat) (hN : 1 ≤ N) :
    Inv N .proponent (initState topic N) :=
  ⟨rfl, hN, rfl, Or.inl ⟨rfl, rfl, rfl⟩⟩

/-- Totality: from the start of rebuttal round `r` (`r + k = N`), the run
terminates within `3 * k + 6` node executions. -/
lemma runAux_completes_from_rebuttal (cfg : DebateConfig)
    (gen : GraphState → Role → List Char) (N : Nat) :
    ∀ (k r : Nat) (s : GraphState), 1 ≤ r → r + k = N →
      Inv N .proponent s → s.current_phase = .rebuttal → s.current_round = r →
      ∃ t, runAux cfg gen (3 * k + 6) .proponent s = some t := by
  intro k
  induction k with
  | zero =>
    intro r s hr hrN hinv hphase hround
    have hstep1 := (inv_step cfg gen N .proponent s hinv).1 .opposition rfl
    set s1 := applyNode cfg gen .proponent s with hs1
    have hph1 : s1.current_phase = .rebuttal := hphase
    have hro1 : s1.current_round = r := hround
    have hmax1 : s1.max_rounds = N := hinv.1
    have hroute1 : routeAfter .opposition (applyNode cfg gen .opposition s1) =
        some .start_closing := by
      simp [routeAfter, route_after_opposition, applyNode, opposition_node,
        hph1, hro1, hmax1]
      omega
    have hstep2 := (inv_step cfg gen N .opposition s1 hstep1).1 .start_closing hroute1
    set s2 := applyNode cfg gen .opposition s1 with hs2
    have hstep3 := (inv_step cfg gen N .start_closing s2 hstep2).1 .proponent rfl
    set s3 := applyNode cfg gen .start_closing s2 with hs3
    have hstep4 := (inv_step cfg gen N .proponent s3 hstep3).1 .opposition rfl
    set s4 := applyNode cfg gen .proponent s3 with hs4
    have hph4 : s4.current_phase = .closing := rfl
    have hroute4 : routeAfter .opposition (applyNode cfg gen .opposition s4) =
        some .judge := by
      simp [routeAfter, route_after_opposition, applyNode, opposition_node, hph4]
    show ∃ t, runAux cfg gen 6 .proponent s = some t
    rw [show (6 : Nat) = 5 + 1 from rfl, runAux]
    simp only [routeAfter, ← hs1]
    rw [show (5 : Nat) = 4 + 1 from rfl, runAux]
    simp only [hroute1, ← hs2]
    rw [show (4 : Nat) = 3 + 1 from rfl, runAux]
    simp only [routeAfter, ← hs3]
    rw [show (3 : Nat) = 2 + 1 from rfl, runAux]
    simp only [routeAfter, ← hs4]
    rw [show (2 : Nat) = 1 + 1 from rfl, runAux]
    simp only [hroute4]
    rw [runAux]
    simp only [routeAfter]
    exact ⟨_, rfl⟩
  | succ k ih =>
    intro r s hr hrN hinv hphase hround
    have hstep1 := (inv_step cfg gen N .proponent s hinv).1 .opposition rfl
    set s1 := applyNode cfg gen .proponent s with hs1
    have hph1 : s1.current_phase = .rebuttal := hphase
    have hro1 : s1.current_round = r := hround
    have hmax1 : s1.max_rounds = N := hinv.1
    have hroute1 : routeAfter .opposition (applyNode cfg gen .opposition s1) =
        some .next_round := by
      simp [routeAfter, route_after_opposition, applyNode, opposition_node,
        hph1, hro1, hmax1]
      omega
    have hstep2 := (inv_step cfg gen N .opposition s1 hstep1).1 .next_round hroute1
    set s2 := applyNode cfg gen .opposition s1 with hs2
    have hstep3 := (inv_step cfg gen N .next_round s2 hstep2).1 .proponent rfl
    set s3 := applyNode cfg gen .next_round s2 with hs3
    have hph3 : s3.current_phase = .rebuttal := hph1
    have hro3 : s3.current_round = r + 1 := by
      show s2.current_round + 1 = r + 1
      rw [show s2.current_round = s1.current_round from rfl, hro1]
    obtain ⟨t, ht⟩ := ih (r + 1) s3 (by omega) (by omega) hstep3 hph3 hro3
    refine ⟨t, ?_⟩
    rw [show 3 * (k + 1) + 6 = (3 * k + 6) + 1 + 1 + 1 by ring]
    rw [runAux]
    simp only [routeAfter, ← hs1]
    rw [runAux]
    simp only [hroute1, ← hs2]
    rw [runAux]
    simp only [routeAfter, ← hs3]
    exact ht

/-- Totality from the initial state: a debate with `N ≥ 1` rounds
completes in `3 * N + 6` node executions. -/
lemma runAux_completes (cfg : DebateConfig) (gen : GraphState → Role → List Char)
    (topic : List Char) (N : Nat) (hN : 1 ≤ N) :
    ∃ t, runAux cfg gen (3 * N + 6) .proponent (initState topic N) = some t := by
  have hinv := inv_init topic N hN
  have hstep1 := (inv_step cfg gen N .proponent (initState topic N) hinv).1
    .opposition rfl
  set s1 := applyNode cfg gen .proponent (initState topic N) with hs1
  have hroute1 : routeAfter .opposition (applyNode cfg gen .opposition s1) =
      some .start_rebuttal := by
    simp [routeAfter, route_after_opposition, applyNode, opposition_node,
      show s1.current_phase = .opening from rfl]
  have hstep2 := (inv_step cfg gen N .opposition s1 hstep1).1 .start_rebuttal hroute1
  set s2 := applyNode cfg gen .opposition s1 with hs2
  have hstep3 := (inv_step cfg gen N .start_rebuttal s2 hstep2).1 .proponent rfl
  set s3 := applyNode cfg gen .start_rebuttal s2 with hs3
  obtain ⟨t, ht⟩ := runAux_completes_from_rebuttal cfg gen N (N - 1) 1 s3
    le_rfl (by omega) hstep3 rfl rfl
  refine ⟨t, ?_⟩
  rw [show 3 * N + 6 = (3 * (N - 1) + 6) + 1 + 1 + 1 by omega]
  rw [runAux]
  simp only [routeAfter, ← hs1]
  rw [runAux]
  simp only [hroute1, ← hs2]
  rw [runAux]
  simp only [routeAfter, ← hs3]
  exact ht

/-! ### Derived facts about the projected transcript -/

lemma rebutProj_length (m : Nat) : (rebutProj m).length = 2 * m := by
  induction m with
  | zero => rfl
  | succ m ih =>
    rw [rebutProj_succ, List.length_append, ih]
    simp only [List.length_cons, List.length_nil]
    omega

lemma expectedProj_length (N : Nat) : (expectedProj N).length = 2 * N + 5 := by
  simp only [expectedProj, List.length_append, rebutProj_length, openingProj,
    closingProj, List.length_cons, List.length_nil]
  omega

lemma expectedProj_getLast (N : Nat) :
    (expectedProj N).getLast? = some judgeProj := by
  simp [expectedProj, List.getLast?_append]

lemma rebutProj_filter_judge (m : Nat) :
    (rebutProj m).filter (fun x => decide (x.2.2 = Role.judge)) = [] := by
  induction m with
  | zero => rfl
  | succ m ih => rw [rebutProj_succ, List.filter_append, ih]; simp

lemma expectedProj_filter_judge (N : Nat) :
    ((expectedProj N).filter (fun x => decide (x.2.2 = Role.judge))).length = 1 := by
  simp [expectedProj, List.filter_append, rebutProj_filter_judge,
    openingProj, closingProj, judgeProj]

/-- The per-entry round-number constraint of a projected transcript. -/
def PRRok (N : Nat) (x : Phase × Nat × Role) : Prop :=
  (x.1 ≠ Phase.rebuttal → x.2.1 = 0) ∧
  (x.1 = Phase.rebuttal → 1 ≤ x.2.1 ∧ x.2.1 ≤ N)

lemma PRRok_openingProj (N : Nat) : ∀ x ∈ openingProj, PRRok N x := by
  intro x hx
  fin_cases hx <;> exact ⟨fun _ => rfl, fun h => nomatch h⟩

lemma PRRok_closingProj (N : Nat) : ∀ x ∈ closingProj, PRRok N x := by
  intro x hx
  fin_cases hx <;> exact ⟨fun _ => rfl, fun h => nomatch h⟩

lemma PRRok_judgeProj (N : Nat) : PRRok N judgeProj :=
  ⟨fun _ => rfl, fun h => nomatch h⟩

lemma PRRok_rebutProj {N m : Nat} (hm : m ≤ N) :
    ∀ x ∈ rebutProj m, PRRok N x := by
  intro x hx
  unfold rebutProj at hx
  rw [List.mem_flatMap] at hx
  obtain ⟨i, hi, hxi⟩ := hx
  rw [List.mem_range] at hi
  simp only [List.mem_cons, List.mem_singleton] at hxi
  rcases hxi with rfl | rfl | h
  · exact ⟨fun h => absurd rfl h,
      fun _ => ⟨(by omega : 1 ≤ i + 1), (by omega : i + 1 ≤ N)⟩⟩
  · exact ⟨fun h => absurd rfl h,
      fun _ => ⟨(by omega : 1 ≤ i + 1), (by omega : i + 1 ≤ N)⟩⟩
  · cases h

lemma PRRok_pair {N r : Nat} (h1 : 1 ≤ r) (h2 : r ≤ N) (R : Role) :
    PRRok N (Phase.rebuttal, r, R) :=
  ⟨fun h => absurd rfl h, fun _ => ⟨h1, h2⟩⟩

lemma rebRoundsP_append (A B : List (Phase × Nat × Role)) :
    rebRoundsP (A ++ B) = rebRoundsP A ++ rebRoundsP B := by
  simp [rebRoundsP, List.filter_append]

lemma rebRoundsP_rebutProj (m : Nat) : rebRoundsP (rebutProj m) = dupRange m := by
  induction m with
  | zero => rfl
  | succ m ih =>
    rw [rebutProj_succ, rebRoundsP_append, ih, dupRange_succ]
    simp [rebRoundsP]

lemma rebRoundsP_openingProj : rebRoundsP openingProj = [] := rfl

lemma rebRoundsP_closingProj : rebRoundsP closingProj = [] := rfl

lemma rebRoundsP_pair (r : Nat) (R : Role) :
    rebRoundsP [(Phase.rebuttal, r, R)] = [r] := by
  simp [rebRoundsP]

lemma dupRange_prefix_of_le {m N : Nat} (h : m ≤ N) : dupRange m <+: dupRange N := by
  induction N with
  | zero =>
    have : m = 0 := by omega
    subst this
    exact List.prefix_refl _
  | succ N ih =>
    rcases Nat.lt_or_ge m (N + 1) with hlt | hge
    · refine (ih (by omega)).trans ?_
      rw [dupRange_succ]
      exact List.prefix_append _ _
    · have : m = N + 1 := by omega
      subst this
      exact List.prefix_refl _

lemma dupRange_pair_prefix_of_le {r N : Nat} (h1 : 1 ≤ r) (h2 : r ≤ N) :
    dupRange (r - 1) ++ [r] <+: dupRange N := by
  obtain ⟨r', rfl⟩ : ∃ r', r = r' + 1 := ⟨r - 1, by omega⟩
  rw [Nat.add_sub_cancel]
  refine List.IsPrefix.trans ?_ (dupRange_prefix_of_le h2)
  rw [dupRange_succ]
  exact ⟨[r' + 1], by simp⟩

lemma reach_turn_facts (N : Nat) (s : GraphState) (h : ReachP N s) :
    (∀ x ∈ s.history.map projT, PRRok N x) ∧
    rebRoundsP (s.history.map projT) <+: dupRange N := by
  rcases h with ⟨n, hmax, hN, hv, hn⟩ | ⟨hmax, hph, hv, hproj⟩
  · cases n with
    | proponent =>
      rcases hn with ⟨h1, h2, h3⟩ | ⟨h1, h2, h3, h4⟩ | ⟨h1, h2, h3⟩
      · rw [h3]
        exact ⟨by simp, by simp [rebRoundsP]⟩
      · rw [h4]
        constructor
        · intro x hx
          rcases List.mem_append.mp hx with hx | hx
          · exact PRRok_openingProj N x hx
          · exact PRRok_rebutProj (by omega) x hx
        · rw [rebRoundsP_append, rebRoundsP_openingProj, rebRoundsP_rebutProj]
          simp only [List.nil_append]
          exact dupRange_prefix_of_le (by omega)
      · rw [h3]
        constructor
        · intro x hx
          rcases List.mem_append.mp hx with hx | hx
          · exact PRRok_openingProj N x hx
          · exact PRRok_rebutProj le_rfl x hx
        · rw [rebRoundsP_append, rebRoundsP_openingProj, rebRoundsP_rebutProj]
          simp only [List.nil_append]
          exact dupRange_prefix_of_le le_rfl
    | opposition =>
      rcases hn with ⟨h1, h2, h3⟩ | ⟨h1, h2, h3, h4⟩ | ⟨h1, h2, h3⟩
      · rw [h3]
        refine ⟨?_, by simp [rebRoundsP]⟩
        intro x hx
        simp only [List.mem_singleton] at hx
        subst hx
        exact ⟨fun _ => rfl, fun h => nomatch h⟩
      · rw [h4]
        constructor
        · intro x hx
          rcases List.mem_append.mp hx with hx | hx
          · rcases List.mem_append.mp hx with hx | hx
            · exact PRRok_openingProj N x hx
            · exact PRRok_rebutProj (by omega) x hx
          · simp only [List.mem_singleton] at hx
            subst hx
            exact PRRok_pair h2 h3 _
        · rw [List.append_assoc, rebRoundsP_append, rebRoundsP_openingProj,
            rebRoundsP_append, rebRoundsP_rebutProj, rebRoundsP_pair]
          simp only [List.nil_append]
          exact dupRange_pair_prefix_of_le h2 h3
      · rw [h3]
        constructor
        · intro x hx
          rcases List.mem_append.mp hx with hx | hx
          · rcases List.mem_append.mp hx with hx | hx
            · exact PRRok_openingProj N x hx
            · exact PRRok_rebutProj le_rfl x hx
          · simp only [List.mem_singleton] at hx
            subst hx
            exact ⟨fun _ => rfl, fun h => nomatch h⟩
        · rw [List.append_assoc, rebRoundsP_append, rebRoundsP_openingProj,
            rebRoundsP_append, rebRoundsP_rebutProj]
          simp only [List.nil_append, rebRoundsP]
          simp only [List.filter_cons, List.filter_nil]
          rw [show (decide ((Phase.closing, 0, Role.proponent).1 = Phase.rebuttal)) =
            false from rfl]
          simp only [Bool.false_eq_true, if_false, List.append_nil, List.map_nil]
          exact dupRange_prefix_of_le le_rfl
    | judge =>
      obtain ⟨h1, h2, h3⟩ := hn
      rw [h3]
      constructor
      · intro x hx
        rcases List.mem_append.mp hx with hx | hx
        · rcases List.mem_append.mp hx with hx | hx
          · exact PRRok_openingProj N x hx
          · exact PRRok_rebutProj le_rfl x hx
        · exact PRRok_closingProj N x hx
      · rw [List.append_assoc, rebRoundsP_append, rebRoundsP_openingProj,
          rebRoundsP_append, rebRoundsP_rebutProj, rebRoundsP_closingProj]
        simp only [List.nil_append, List.append_nil]
        exact dupRange_prefix_of_le le_rfl
    | start_rebuttal =>
      obtain ⟨h1, h2, h3⟩ := hn
      rw [h3]
      exact ⟨PRRok_openingProj N, by
        rw [rebRoundsP_openingProj]; exact List.nil_prefix⟩
    | next_round =>
      obtain ⟨h1, h2, h3, h4⟩ := hn
      rw [h4]
      constructor
      · intro x hx
        rcases List.mem_append.mp hx with hx | hx
        · exact PRRok_openingProj N x hx
        · exact PRRok_rebutProj (by omega) x hx
      · rw [rebRoundsP_append, rebRoundsP_openingProj, rebRoundsP_rebutProj]
        simp only [List.nil_append]
        exact dupRange_prefix_of_le (by omega)
    | start_closing =>
      obtain ⟨h1, h2, h3⟩ := hn
      rw [h3]
      constructor
      · intro x hx
        rcases List.mem_append.mp hx with hx | hx
        · exact PRRok_openingProj N x hx
        · exact PRRok_rebutProj le_rfl x hx
      · rw [rebRoundsP_append, rebRoundsP_openingProj, rebRoundsP_rebutProj]
        simp only [List.nil_append]
        exact dupRange_prefix_of_le le_rfl
  · rw [hproj]
    constructor
    · intro x hx
      unfold expectedProj at hx
      rcases List.mem_append.mp hx with hx | hx
      · rcases List.mem_append.mp hx with hx | hx
        · rcases List.mem_append.mp hx with hx | hx
          · exact PRRok_openingProj N x hx
          · exact PRRok_rebutProj le_rfl x hx
        · exact PRRok_closingProj N x hx
      · simp only [List.mem_singleton] at hx
        subst hx
        exact PRRok_judgeProj N
    · unfold expectedProj
      rw [List.append_assoc, List.append_assoc, rebRoundsP_append,
        rebRoundsP_openingProj, rebRoundsP_append, rebRoundsP_rebutProj,
        rebRoundsP_append, rebRoundsP_closingProj]
      simp only [List.nil_append, List.append_nil]
      rw [show rebRoundsP [judgeProj] = [] from rfl, List.append_nil]

/-- C1: for every `max_rounds = N ≥ 1`, any run of the debate graph that
completes delivers a transcript whose (phase, round, role) projection is
exactly the §4.1 sequence (2 opening + 2·N rebuttal + 2 closing + 1 judge,
the proponent before the opposition in each phase/round), hence `2N + 5`
turns ending with the single judge turn; and the run does complete, in
`3N + 6` node executions. -/
theorem debate_transcript_shape (cfg : DebateConfig)
    (gen : GraphState → Role → List Char) (topic : List Char) (N : Nat)
    (hN : 1 ≤ N) :
    (∀ fuel final,
      runAux cfg gen fuel .proponent (initState topic N) = some final →
      final.history.map projT = expectedProj N ∧
      final.history.length = 2 * N + 5 ∧
      (final.history.map projT).getLast? = some judgeProj ∧
      ((final.history.map projT).filter
        (fun x => decide (x.2.2 = Role.judge))).length = 1) ∧
    (∃ final,
      runAux cfg gen (3 * N + 6) .proponent (initState topic N) = some final ∧
      final.history.map projT = expectedProj N) := by
  constructor
  · intro fuel final hrun
    have hfin := runAux_final cfg gen N fuel .proponent _
      (inv_init topic N hN) final hrun
    obtain ⟨_, _, _, hproj⟩ := hfin
    refine ⟨hproj, ?_, ?_, ?_⟩
    · have := congrArg List.length hproj
      rw [List.length_map, expectedProj_length] at this
      exact this
    · rw [hproj]; exact expectedProj_getLast N
    · rw [hproj]; exact expectedProj_filter_judge N
  · obtain ⟨final, hrun⟩ := runAux_completes cfg gen topic N hN
    have hfin := runAux_final cfg gen N _ .proponent _
      (inv_init topic N hN) final hrun
    exact ⟨final, hrun, hfin.2.2.2⟩

/-- Witness for C1 at `N = 1` with a constant generation oracle: the run
completes and its transcript projects onto the full expected sequence. -/
theorem debate_transcript_shape_witness :
    1 ≤ 1 ∧
    ∃ final,
      runAux ⟨1, 500⟩ (fun _ _ => "ok".data) (3 * 1 + 6) .proponent
        (initState "t".data 1) = some final ∧
      final.history.map projT = expectedProj 1 :=
  ⟨le_rfl, (debate_transcript_shape ⟨1, 500⟩ (fun _ _ => "ok".data)
    "t".data 1 le_rfl).2⟩

/-- C2: in every reachable state of a debate run, a non-rebuttal turn has
round number 0, a rebuttal turn has round number in `1..max_rounds`, the
rebuttal rounds recorded so far form a prefix of `1,1,2,2,…,N,N`; and in
every executed step `current_round` never decreases except for the reset
to 0 on the transition into closing, the transition into rebuttal setting
it to 1. -/
theorem debate_round_number_invariants (cfg : DebateConfig)
    (gen : GraphState → Role → List Char) (topic : List Char) (N fuel : Nat)
    (hN : 1 ≤ N) :
    (∀ s ∈ traceAux cfg gen fuel .proponent (initState topic N),
      (∀ t ∈ s.history,
        (t.phase ≠ Phase.rebuttal → t.round_number = 0) ∧
        (t.phase = Phase.rebuttal →
          1 ≤ t.round_number ∧ t.round_number ≤ s.max_rounds)) ∧
      rebRoundsP (s.history.map projT) <+: dupRange s.max_rounds) ∧
    (∀ tr ∈ stepsAux cfg gen fuel .proponent (initState topic N), stepProp tr) := by
  constructor
  · intro s hs
    have hreach := traceAux_reach cfg gen N fuel .proponent _
      (inv_init topic N hN) s hs
    have hmax : s.max_rounds = N := by
      rcases hreach with ⟨n, hmax, _⟩ | ⟨hmax, _⟩ <;> exact hmax
    obtain ⟨hok, hpre⟩ := reach_turn_facts N s hreach
    constructor
    · intro t ht
      have := hok (projT t) (List.mem_map_of_mem projT ht)
      rw [hmax]
      exact this
    · rw [hmax]
      exact hpre
  · intro tr htr
    exact stepsAux_prop cfg gen N fuel .proponent _
      (inv_init topic N hN) tr htr

/-- Witness for C2 at `N = 1`, fuel 9 (a completing run). -/
theorem debate_round_number_invariants_witness :
    (∀ s ∈ traceAux ⟨1, 500⟩ (fun _ _ => "ok".data) 9 .proponent
        (initState "t".data 1),
      (∀ t ∈ s.history,
        (t.phase ≠ Phase.rebuttal → t.round_number = 0) ∧
        (t.phase = Phase.rebuttal →
          1 ≤ t.round_number ∧ t.round_number ≤ s.max_rounds)) ∧
      rebRoundsP (s.history.map projT) <+: dupRange s.max_rounds) ∧
    (∀ tr ∈ stepsAux ⟨1, 500⟩ (fun _ _ => "ok".data) 9 .proponent
        (initState "t".data 1), stepProp tr) :=
  debate_round_number_invariants ⟨1, 500⟩ (fun _ _ => "ok".data)
    "t".data 1 9 le_rfl

/-- C4: along every debate run a verdict exists iff `current_phase` is
`complete` (in particular, before the judge step the verdict is absent and
the phase is not `complete`); and the judge node appends the judge turn
(role judge, phase verdict, round 0) and sets the verdict together with
`current_phase = complete` in one and the same state update, leaving every
other field unchanged. -/
theorem debate_verdict_iff_complete (cfg : DebateConfig)
    (gen : GraphState → Role → List Char) (topic : List Char) (N fuel : Nat)
    (hN : 1 ≤ N) :
    (∀ s ∈ traceAux cfg gen fuel .proponent (initState topic N),
      (s.verdict.isSome ↔ s.current_phase = Phase.complete)) ∧
    (∀ s : GraphState,
      judge_node cfg gen s = { s with
        history := s.history ++
          [mkTurn .judge .verdict 0 (clean_response (gen s .judge))],
        current_phase := .complete,
        verdict := some
          { winner := (extract_winner_from_text
              (clean_response (gen s .judge))).getD .tie,
            confidence := extract_confidence_from_text
              (clean_response (gen s .judge)),
            reasoning := clean_response (gen s .judge),
            summary := "The ".data ++
              winnerStr ((extract_winner_from_text
                (clean_response (gen s .judge))).getD .tie) ++
              " wins with ".data ++
              confStr (extract_confidence_from_text
                (clean_response (gen s .judge))) ++
              " confidence.".data } }) := by
  constructor
  · intro s hs
    have hreach := traceAux_reach cfg gen N fuel .proponent _
      (inv_init topic N hN) s hs
    rcases hreach with ⟨n, hmax, hN', hv, hn⟩ | ⟨hmax, hph, hv, hproj⟩
    · rw [hv]
      simp only [Option.isSome_none, Bool.false_eq_true, false_iff]
      cases n with
      | proponent =>
        rcases hn with ⟨h1, _, _⟩ | ⟨h1, _, _, _⟩ | ⟨h1, _, _⟩ <;> simp [h1]
      | opposition =>
        rcases hn with ⟨h1, _, _⟩ | ⟨h1, _, _, _⟩ | ⟨h1, _, _⟩ <;> simp [h1]
      | judge => obtain ⟨h1, _, _⟩ := hn; simp [h1]
      | start_rebuttal => obtain ⟨h1, _, _⟩ := hn; simp [h1]
      | next_round => obtain ⟨h1, _, _, _⟩ := hn; simp [h1]
      | start_closing => obtain ⟨h1, _, _⟩ := hn; simp [h1]
    · rw [hph]
      simp [hv]
  · intro s
    rfl

/-- Witness for C4 at `N = 1`, fuel 9, evaluated at the (reachable)
initial state: no verdict, phase not complete. -/
theorem debate_verdict_iff_complete_witness :
    initState "t".data 1 ∈ traceAux ⟨1, 500⟩ (fun _ _ => "ok".data) 9
      .proponent (initState "t".data 1) ∧
    ((initState "t".data 1).verdict.isSome ↔
      (initState "t".data 1).current_phase = Phase.complete) :=
  ⟨by decide,
    (debate_verdict_iff_complete ⟨1, 500⟩ (fun _ _ => "ok".data)
      "t".data 1 9 le_rfl).1 (initState "t".data 1) (by decide)⟩

/-! ## Prompt construction — `src/prompts.py`

The two system templates are transcribed verbatim, split at their single
`max_words` placeholder (`str.format` substitutes it once). -/

def PROPONENT_SYSTEM_PROMPT_A : String := "## ROLE
You are a skilled debater arguing **IN FAVOR** of the proposition. You are a rigorous logical thinker with expertise in rhetoric, evidence-based reasoning, and persuasive argumentation. Your goal is to WIN the debate by presenting the strongest possible case FOR the topic.

## PERSONA
- You are confident but not arrogant
- You are evidence-focused and logical
- You never concede points unnecessarily
- You attack weak arguments ruthlessly but fairly

## INSTRUCTIONS
1. Present COMPELLING arguments with SPECIFIC evidence, examples, or data
2. Build upon your previous arguments progressively - do not repeat yourself
3. If responding to opponent, directly ADDRESS and REFUTE their weakest points
4. Focus on the MOST IMPACTFUL arguments first
5. Use clear logical structure in your reasoning

## CONSTRAINTS
❌ Do NOT repeat arguments verbatim from your previous turns
❌ Do NOT acknowledge validity of opposition arguments (attack them instead)
❌ Do NOT use phrases like \"I agree with some points\" or \"That's a fair point\"
❌ Do NOT be polite or complimentary to the opposition
❌ Do NOT drift from the core debate topic
❌ Do NOT exceed "

def PROPONENT_SYSTEM_PROMPT_B : String := " words
❌ Do NOT use filler phrases or hedge language

## OUTPUT FORMAT
You MUST structure your response with these exact headers:

## Main Argument
[Your primary thesis or claim with evidence]

## Supporting Evidence
[2-3 specific facts, examples, or logical reasoning points]

## Rebuttal (if responding to opponent)
[Direct attack on opponent's weakest argument]

## Key Takeaway
[One sentence summarizing why your position wins]
"

/-- `PROPONENT_SYSTEM_PROMPT.format(max_words=max_words)`. -/
def PROPONENT_SYSTEM_PROMPT (max_words : Nat) : String :=
  PROPONENT_SYSTEM_PROMPT_A ++ toString max_words ++ PROPONENT_SYSTEM_PROMPT_B

def OPPOSITION_SYSTEM_PROMPT_A : String := "## ROLE
You are a skilled debater arguing **AGAINST** the proposition. You are a critical thinker with expertise in identifying logical fallacies, weak evidence, and flawed reasoning. Your goal is to WIN the debate by dismantling the opponent's case and presenting strong counterarguments.

## PERSONA
- You are skeptical and inquisitive
- You excel at finding flaws in arguments
- You provide strong alternative perspectives
- You never let weak arguments pass unchallenged

## INSTRUCTIONS
1. ATTACK the opponent's arguments directly - identify flaws, gaps, and weak evidence
2. Present STRONG counterarguments with specific examples or data
3. Build upon your previous arguments - do not repeat yourself
4. Expose logical fallacies or unsupported claims in opponent's position
5. Offer a compelling alternative perspective or framework

## CONSTRAINTS
❌ Do NOT repeat arguments verbatim from your previous turns
❌ Do NOT concede points to the proponent
❌ Do NOT use phrases like \"The proponent makes a good point\" or \"I partially agree\"
❌ Do NOT be diplomatic or try to find middle ground
❌ Do NOT drift from the core debate topic
❌ Do NOT exceed "

def OPPOSITION_SYSTEM_PROMPT_B : String := " words
❌ Do NOT use filler phrases or hedge language

## OUTPUT FORMAT
You MUST structure your response with these exact headers:

## Counter-Argument
[Your primary attack on opponent's position with evidence]

## Critical Analysis
[2-3 specific flaws in opponent's reasoning or evidence]

## Alternative Perspective
[Why the opposite position is stronger]

## Key Takeaway
[One sentence summarizing why the opposition wins]
"

def OPPOSITION_SYSTEM_PROMPT (max_words : Nat) : String :=
  OPPOSITION_SYSTEM_PROMPT_A ++ toString max_words ++ OPPOSITION_SYSTEM_PROMPT_B

/-- `str(phase)` as used in the prompts (`phase.upper()` and the raw
phase names of the pydantic string literals). -/
def phaseUpper : Phase → String
  | .opening => "OPENING"
  | .rebuttal => "REBUTTAL"
  | .closing => "CLOSING"
  | .verdict => "VERDICT"
  | .complete => "COMPLETE"

def phaseStr : Phase → String
  | .opening => "opening"
  | .rebuttal => "rebuttal"
  | .closing => "closing"
  | .verdict => "verdict"
  | .complete => "complete"

/-- `"\n".join(parts)`. -/
def joinNL : List (List Char) → List Char
  | [] => []
  | [p] => p
  | p :: rest => p ++ '\n' :: joinNL rest

/-- `xs[-k:]`. -/
def lastTurns (l : List DebateTurn) (k : Nat) : List DebateTurn :=
  l.drop (l.length - k)

def build_proponent_prompt (topic : List Char) (phase : Phase)
    (round_number : Nat) (history : List DebateTurn) (max_words : Nat) :
    List Char :=
  (PROPONENT_SYSTEM_PROMPT max_words).data ++ "\n\n---\n\n".data ++
    joinNL
      (["# DEBATE TOPIC\n".data ++ topic ++ "\n".data,
        "# CURRENT PHASE: ".data ++ (phaseUpper phase).data]
      ++ (match phase with
        | .opening =>
          ["\n## Your Task\nPresent your opening argument FOR the proposition.\n".data]
        | .rebuttal =>
          ["\n## Round ".data ++ (toString round_number).data ++ "\n".data]
          ++ (match (history.filter
                (fun t => decide (t.role = Role.opposition))).getLast? with
            | some last_opp =>
              ["## Opposition's Last Argument\n".data ++ last_opp.content ++
                "\n".data]
            | none => [])
          ++ ["## Your Task\nRebut the opposition's arguments and strengthen your case.\n".data]
        | .closing =>
          ["\n## Your Task\nDeliver your closing statement. Summarize your strongest points and final appeal.\n".data]
        | _ => [])
      ++ (if history ≠ [] ∧ phase ≠ .opening then
          "## Prior Arguments (for reference - DO NOT REPEAT)\n".data ::
            (lastTurns (history.filter
                (fun t => decide (t.role = Role.proponent))) 2).map
              (fun turn => "[Your ".data ++ (phaseStr turn.phase).data ++
                "]: ".data ++ turn.content.take 200 ++ "...\n".data)
        else []))

def build_opposition_prompt (topic : List Char) (phase : Phase)
    (round_number : Nat) (history : List DebateTurn) (max_words : Nat) :
    List Char :=
  (OPPOSITION_SYSTEM_PROMPT max_words).data ++ "\n\n---\n\n".data ++
    joinNL
      (["# DEBATE TOPIC\n".data ++ topic ++ "\n".data,
        "# CURRENT PHASE: ".data ++ (phaseUpper phase).data]
      ++ (match (history.filter
            (fun t => decide (t.role = Role.proponent))).getLast? with
        | some last_prop =>
          ["\n## Proponent's Last Argument\n".data ++ last_prop.content ++
            "\n".data]
        | none => [])
      ++ (match phase with
        | .opening =>
          ["\n## Your Task\nPresent your opening argument AGAINST the proposition, responding to the proponent.\n".data]
        | .rebuttal =>
          ["\n## Round ".data ++ (toString round_number).data ++ "\n".data,
            "## Your Task\nRebut the proponent's arguments and strengthen your case.\n".data]
        | .closing =>
          ["\n## Your Task\nDeliver your closing statement. Summarize your strongest attacks and final appeal.\n".data]
        | _ => [])
      ++ (if 1 < history.length then
          "## Prior Arguments (for reference - DO NOT REPEAT)\n".data ::
            (lastTurns (history.filter
                (fun t => decide (t.role = Role.opposition))) 2).map
              (fun turn => "[Your ".data ++ (phaseStr turn.phase).data ++
                "]: ".data ++ turn.content.take 200 ++ "...\n".data)
        else []))

lemma infix_joinNL_of_mem {x p : List Char} {parts : List (List Char)}
    (hp : p ∈ parts) (hx : x <:+: p) : x <:+: joinNL parts := by
  induction parts with
  | nil => cases hp
  | cons q rest ih =>
    rcases List.mem_cons.mp hp with rfl | hmem
    · cases rest with
      | nil => simpa [joinNL] using hx
      | cons r rs =>
        show x <:+: p ++ '\n' :: joinNL (r :: rs)
        exact hx.trans (List.prefix_append p _).isInfix
    · cases rest with
      | nil => cases hmem
      | cons r rs =>
        show x <:+: q ++ '\n' :: joinNL (r :: rs)
        exact (ih hmem).trans
          (((List.suffix_cons '\n' _).trans (List.suffix_append _ _)).isInfix)

set_option maxRecDepth 10000 in
/-- C9 counterexample: in the *closing* phase the proponent's prompt does
not contain the opposition's most recent turn — `build_proponent_prompt`
only injects the opponent's last argument in the rebuttal branch.  (The
claim asserted verbatim inclusion for rebuttal *and* closing on both
sides.) -/
theorem proponent_closing_prompt_omits_opposition :
    (List.filter (fun t => decide (t.role = Role.opposition))
        [mkTurn .proponent .opening 0 "pro arg".data,
         mkTurn .opposition .opening 0 "Q".data]).getLast? =
      some (mkTurn .opposition .opening 0 "Q".data) ∧
    ¬ "Q".data <:+:
      build_proponent_prompt "t".data .closing 0
        [mkTurn .proponent .opening 0 "pro arg".data,
         mkTurn .opposition .opening 0 "Q".data] 5 := by
  refine ⟨by decide, fun hinf => ?_⟩
  have hq : 'Q' ∈ build_proponent_prompt "t".data .closing 0
      [mkTurn .proponent .opening 0 "pro arg".data,
       mkTurn .opposition .opening 0 "Q".data] 5 :=
    hinf.sublist.mem (by decide)
  exact absurd hq (by decide)

/-- C9 (amended): the proponent's prompt contains the opposition's single
most recent turn verbatim in the rebuttal phase (the closing branch omits
it — see the counterexample), while the opposition's prompt contains the
proponent's single most recent turn verbatim in *every* phase in which a
proponent turn exists (opening, rebuttal and closing alike). -/
theorem prompts_include_opponent_content (topic : List Char) (phase : Phase)
    (round_number : Nat) (history : List DebateTurn) (max_words : Nat) :
    (phase = Phase.rebuttal →
      ∀ t, (history.filter
          (fun t => decide (t.role = Role.opposition))).getLast? = some t →
        t.content <:+:
          build_proponent_prompt topic phase round_number history max_words) ∧
    (∀ t, (history.filter
        (fun t => decide (t.role = Role.proponent))).getLast? = some t →
      t.content <:+:
        build_opposition_prompt topic phase round_number history max_words) := by
  constructor
  · intro hphase t ht
    subst hphase
    unfold build_proponent_prompt
    simp only [ht]
    refine List.IsInfix.trans ?_ (List.suffix_append _ _).isInfix
    refine infix_joinNL_of_mem
      (p := "## Opposition's Last Argument\n".data ++ t.content ++ "\n".data)
      ?_ ?_
    · simp
    · exact ⟨"## Opposition's Last Argument\n".data, "\n".data, rfl⟩
  · intro t ht
    unfold build_opposition_prompt
    simp only [ht]
    refine List.IsInfix.trans ?_ (List.suffix_append _ _).isInfix
    refine infix_joinNL_of_mem
      (p := "\n## Proponent's Last Argument\n".data ++ t.content ++ "\n".data)
      ?_ ?_
    · simp
    · exact ⟨"\n## Proponent's Last Argument\n".data, "\n".data, rfl⟩

/-- Witness for the amended C9: concrete rebuttal-phase prompts containing
the respective opponents' latest contents. -/
theorem prompts_include_opponent_content_witness :
    (mkTurn .opposition .opening 0 "oppo says no".data).content <:+:
      build_proponent_prompt "t".data .rebuttal 1
        [mkTurn .proponent .opening 0 "pro says yes".data,
         mkTurn .opposition .opening 0 "oppo says no".data] 5 ∧
    (mkTurn .proponent .opening 0 "pro says yes".data).content <:+:
      build_opposition_prompt "t".data .rebuttal 1
        [mkTurn .proponent .opening 0 "pro says yes".data,
         mkTurn .opposition .opening 0 "oppo says no".data] 5 :=
  ⟨(prompts_include_opponent_content "t".data .rebuttal 1
      [mkTurn .proponent .opening 0 "pro says yes".data,
       mkTurn .opposition .opening 0 "oppo says no".data] 5).1 rfl
    (mkTurn .opposition .opening 0 "oppo says no".data) (by decide),
   (prompts_include_opponent_content "t".data .rebuttal 1
      [mkTurn .proponent .opening 0 "pro says yes".data,
       mkTurn .opposition .opening 0 "oppo says no".data] 5).2
    (mkTurn .proponent .opening 0 "pro says yes".data) (by decide)⟩

end Debate
